import Mathlib

/-!
# go-lambda-assets: provisioning of inspection check-lists

A shallow embedding of `helpers/helpers.go` and of the asset flattening loop of
`main.go`, followed by theorems about the embedded functions.

* The storage backend (`*sql.DB`, `*sql.Tx`) is an explicit environment: read
  queries are functions returning `Except Err _`, and the write side is a
  state machine `DB` driven by an `Env` that decides which storage call fails.
* Go `int` identifiers are `Int` (no arithmetic is done on them), slices are
  `List`, and slice indices are `Nat`.
* The recursion of `FetchChildLocations` is not bounded by the source, so it is
  embedded with a fuel counter: `none` means that the recursion did not finish
  within the given number of nested calls.
-/

namespace Helpers

/-- A Go `error` value, identified by its message. -/
abbrev Err := String

/-! ## Location expansion (`FetchChildLocations`) -/

/-- One row of the `Locations` table: identifier and nullable parent reference. -/
structure Location where
  id : Int
  parentId : Option Int
deriving DecidableEq, Repr

/-- The rows selected by `SELECT id FROM Locations WHERE parentId IN (...)`:
the identifiers of the rows whose parent is one of the arguments, in table order. -/
def selectChildIds (table : List Location) (locationIds : List Int) : List Int :=
  (table.filter fun l =>
    match l.parentId with
    | some p => decide (p ∈ locationIds)
    | none => false).map (·.id)

/-- The read side of a store holding the given `Locations` table, with every
query succeeding. -/
def locationsDb (table : List Location) : List Int → Except Err (List Int) :=
  fun locationIds => .ok (selectChildIds table locationIds)

/-- Embedding of `FetchChildLocations` (helpers.go 69-106). `query` stands for
`db.Query` followed by the scan loop and `rows.Err()`: it yields the scanned
`childIds` or the first error. The first argument is the recursion fuel. -/
def FetchChildLocations (query : List Int → Except Err (List Int)) :
    Nat → List Int → Option (Except Err (List Int))
  | 0, _ => none
  | fuel + 1, locationIds =>
    match query locationIds with
    | .error err => some (.error err)
    | .ok childIds =>
      if childIds.length = 0 then
        some (.ok locationIds)
      else
        match FetchChildLocations query fuel childIds with
        | none => none
        | some (.error err) => some (.error err)
        | some (.ok grandChildLocations) => some (.ok (childIds ++ grandChildLocations))

/-- The frontier reached after `n` rounds of child queries starting from `F`:
`level t F 0 = F`, and `level t F (n+1)` are the children of `level t F n`. -/
def level (table : List Location) (F : List Int) : Nat → List Int
  | 0 => F
  | n + 1 => selectChildIds table (level table F n)

/-- The list `L1 ++ L2 ++ ... ++ Lk`. -/
def levelsUpTo (table : List Location) (F : List Int) (k : Nat) : List Int :=
  ((List.range k).map fun i => level table F (i + 1)).flatten

/-- The list `F` when `k = 0`, and `L1 ++ ... ++ Lk ++ Lk` otherwise. -/
def expansion (table : List Location) (F : List Int) (k : Nat) : List Int :=
  if k = 0 then F else levelsUpTo table F k ++ level table F k

/-- The location `c` is stored as a child of `p`. -/
def IsChild (table : List Location) (p c : Int) : Prop :=
  (⟨c, some p⟩ : Location) ∈ table

/-- The location `d` is a proper descendant of `a`. -/
def Descendant (table : List Location) (a d : Int) : Prop :=
  Relation.TransGen (IsChild table) a d

/-- No location is its own proper descendant. -/
def Acyclic (table : List Location) : Prop :=
  ∀ x, ¬ Descendant table x x

/-- The location tree of the specification scenario:
`L1` has children `L2`, `L3`; `L3` has child `L4`. -/
def scenarioTable : List Location :=
  [⟨1, none⟩, ⟨2, some 1⟩, ⟨3, some 1⟩, ⟨4, some 3⟩]

/-- A chain of three locations: `2` is the child of `1` and `3` the child of `2`. -/
def chainTable : List Location :=
  [⟨1, none⟩, ⟨2, some 1⟩, ⟨3, some 2⟩]

/-- Decidable form of the height condition: every stored child is lower than
its parent. -/
def heightDecreases (table : List Location) (height : Int → Nat) : Bool :=
  table.all fun l =>
    match l.parentId with
    | some p => decide (height l.id < height p)
    | none => true

/-! ## Asset resolution (`FetchAssetsForLocations`, `Handler`) -/

/-- Embedding of `AssetDetail` (helpers.go 10-14). -/
structure AssetDetail where
  id : Int
  productId : Int
  CategoryId : Int
deriving DecidableEq, Repr

/-- A Go `map[int][]AssetDetail`: an association list with distinct keys. -/
abbrev AssetsMap := List (Int × List AssetDetail)

/-- Map read `m[k]`: the stored slice, or the zero value (nil slice). -/
def AssetsMap.get (m : AssetsMap) (k : Int) : List AssetDetail :=
  match m.lookup k with
  | some v => v
  | none => []

/-- Map write `m[k] = v`. -/
def AssetsMap.set : AssetsMap → Int → List AssetDetail → AssetsMap
  | [], k, v => [(k, v)]
  | (k', v') :: m, k, v =>
    if k' = k then (k, v) :: m else (k', v') :: AssetsMap.set m k v

/-- A row `(assetId, productId, categoryId)` of the asset query. -/
abbrev AssetRow := Int × Int × Int

/-- The value `rows.Scan(&asset.id, &asset.productId, &asset.CategoryId)` stores. -/
def scanAsset (row : AssetRow) : AssetDetail :=
  ⟨row.1, row.2.1, row.2.2⟩

/-- Embedding of `FetchAssetsForLocations` (helpers.go 16-60). `query` stands
for `db.Query` with the scan errors and `rows.Err()` folded in. The variable
`locationId` is declared in the loop body and never assigned, so it holds the
zero value at the map update of line 49. -/
def FetchAssetsForLocations (query : List Int → Except Err (List AssetRow))
    (locationIds : List Int) : Except Err AssetsMap :=
  match query locationIds with
  | .error err => .error err
  | .ok rows =>
    .ok (rows.foldl (fun assetsMap row =>
      let asset := scanAsset row
      let locationId : Int := 0
      assetsMap.set locationId (assetsMap.get locationId ++ [asset])) [])

/-- Embedding of the flattening loop of `Handler` (main.go 107-110). Go ranges
over a map in an unspecified order; `order` is the sequence of entries in the
order the loop visits them. -/
def flattenAssets (order : List (Int × List AssetDetail)) : List AssetDetail :=
  order.foldl (fun allAssets kv => allAssets ++ kv.2) []

/-! ## Provisioning engine: storage model -/

/-- Embedding of `CheckGroupTemplate` (helpers.go 108-112). -/
structure CheckGroupTemplate where
  id : Int
  name : String
  categoryId : Int
deriving DecidableEq, Repr

/-- Embedding of `CheckItemTemplate` (helpers.go 143-147). -/
structure CheckItemTemplate where
  id : Int
  name : String
  checkGroupId : Int
deriving DecidableEq, Repr

/-- The three `INSERT` statements of `ProcessBatch` with their bound arguments
(helpers.go 222, 234, 246). Timestamps are readings of the logical clock. -/
inductive Insert where
  | assetCheck (assetId : Int) (owner : String) (updatedAt : Nat) (status : String)
  | checkGroup (name : String) (assetCheckId : Int) (status : String)
  | checkItem (name : String) (checkGroupId : Int) (status : String) (updatedAt : Nat)
deriving DecidableEq, Repr

/-- A stored row: the identifier assigned by the store and the inserted values. -/
structure Row where
  id : Int
  data : Insert
deriving DecidableEq, Repr

/-- One storage call of the write side together with its outcome. Transactions
are named by the clock reading at which they were begun. -/
inductive Event where
  | begin (outcome : Except Err Nat)
  | exec (tx : Nat) (stmt : Insert) (outcome : Except Err Int)
  | lastInsertId (outcome : Except Err Int)
  | commit (tx : Nat) (outcome : Option Err)
  | rollback (tx : Nat)

/-- The behaviour of the storage backend during one invocation: which storage
call fails (indexed by the number of storage calls made before it) and which
identifier an insert is assigned. -/
structure Env where
  fault : Nat → Option Err
  newId : Nat → Int

/-- State of the store as seen by the write side. `committed` are the durable,
observable rows; `pending` are the rows written by the open transaction. -/
structure DB where
  clock : Nat
  committed : List Row
  pending : List Row
  log : List Event

/-- The next state after a storage call: the clock advances and the call is logged. -/
def DB.record (db : DB) (ev : Event) : DB :=
  { db with clock := db.clock + 1, log := db.log ++ [ev] }

/-- Storage call `db.Begin()`. -/
def DB.Begin (env : Env) (db : DB) : Except Err Nat × DB :=
  match env.fault db.clock with
  | some err => (.error err, db.record (.begin (.error err)))
  | none => (.ok db.clock, { db.record (.begin (.ok db.clock)) with pending := [] })

/-- Storage call `tx.Exec(insert, args...)`. The returned `sql.Result` is
represented by the identifier assigned to the new row. -/
def Tx.Exec (env : Env) (tx : Nat) (stmt : Insert) (db : DB) : Except Err Int × DB :=
  match env.fault db.clock with
  | some err => (.error err, db.record (.exec tx stmt (.error err)))
  | none =>
    let id := env.newId db.clock
    (.ok id, { db.record (.exec tx stmt (.ok id)) with pending := db.pending ++ [⟨id, stmt⟩] })

/-- Storage call `result.LastInsertId()`. -/
def Result.LastInsertId (env : Env) (result : Int) (db : DB) : Except Err Int × DB :=
  match env.fault db.clock with
  | some err => (.error err, db.record (.lastInsertId (.error err)))
  | none => (.ok result, db.record (.lastInsertId (.ok result)))

/-- Storage call `tx.Commit()`: on success the pending rows become durable, on
failure they are lost. -/
def Tx.Commit (env : Env) (tx : Nat) (db : DB) : Option Err × DB :=
  match env.fault db.clock with
  | some err => (some err, { db.record (.commit tx (some err)) with pending := [] })
  | none =>
    (none, { db.record (.commit tx none) with
      committed := db.committed ++ db.pending, pending := [] })

/-- Storage call `tx.Rollback()`: the pending rows are discarded. -/
def Tx.Rollback (_env : Env) (tx : Nat) (db : DB) : DB :=
  { db.record (.rollback tx) with pending := [] }

/-! ## Provisioning engine: `ProcessBatch` and `ProcessAndInsertAssets` -/

/-- The loop over `checkItemTemplatesMap[checkGroupTemplate.id]` (helpers.go 245-251).
The result is the value passed to `return`, or `none` when the loop runs to its end. -/
def insertCheckItems (env : Env) (tx : Nat) (checkGroupId : Int) :
    List CheckItemTemplate → DB → Option Err × DB
  | [], db => (none, db)
  | checkItemTemplate :: rest, db =>
    match Tx.Exec env tx (.checkItem checkItemTemplate.name checkGroupId "pass" db.clock) db with
    | (.error err, db) => (some err, db)
    | (.ok _, db) => insertCheckItems env tx checkGroupId rest db

/-- The loop over `checkGroupTemplatesMap[asset.CategoryId]` (helpers.go 233-252). -/
def insertCheckGroups (env : Env) (tx : Nat)
    (checkItemTemplatesMap : Int → List CheckItemTemplate) (assetCheckId : Int) :
    List CheckGroupTemplate → DB → Option Err × DB
  | [], db => (none, db)
  | checkGroupTemplate :: rest, db =>
    match Tx.Exec env tx (.checkGroup checkGroupTemplate.name assetCheckId "pass") db with
    | (.error err, db) => (some err, db)
    | (.ok result, db) =>
      match Result.LastInsertId env result db with
      | (.error err, db) => (some err, db)
      | (.ok checkGroupId, db) =>
        match insertCheckItems env tx checkGroupId
            (checkItemTemplatesMap checkGroupTemplate.id) db with
        | (some err, db) => (some err, db)
        | (none, db) =>
          insertCheckGroups env tx checkItemTemplatesMap assetCheckId rest db

/-- The loop over `assets` (helpers.go 219-253). A Go map read of a missing key
yields the nil slice, so the two template maps are total functions. -/
def insertAssetChecks (env : Env) (tx : Nat)
    (checkGroupTemplatesMap : Int → List CheckGroupTemplate)
    (checkItemTemplatesMap : Int → List CheckItemTemplate) (userId : String) :
    List AssetDetail → DB → Option Err × DB
  | [], db => (none, db)
  | asset :: rest, db =>
    match Tx.Exec env tx (.assetCheck asset.id userId db.clock "pass") db with
    | (.error err, db) => (some err, db)
    | (.ok result, db) =>
      match Result.LastInsertId env result db with
      | (.error err, db) => (some err, db)
      | (.ok assetCheckId, db) =>
        match insertCheckGroups env tx checkItemTemplatesMap assetCheckId
            (checkGroupTemplatesMap asset.CategoryId) db with
        | (some err, db) => (some err, db)
        | (none, db) =>
          insertAssetChecks env tx checkGroupTemplatesMap checkItemTemplatesMap userId rest db

/-- The deferred closure of `ProcessBatch` (helpers.go 211-217). Its `err` is
the variable declared at line 203; the closure returns the new value of that
variable. -/
def ProcessBatch.deferred (env : Env) (tx : Nat) (err : Option Err) (db : DB) :
    Option Err × DB :=
  match err with
  | some e => (some e, Tx.Rollback env tx db)
  | none => Tx.Commit env tx db

/-- Embedding of `ProcessBatch` (helpers.go 202-256). The function result is
unnamed, and every `err` assigned inside the loop is declared there with `:=`,
so the variable `err` of line 203 still holds `nil` when the deferred closure
runs, and the closure's assignment to it does not change the value that the
`return` statement has already fixed. -/
def ProcessBatch (env : Env) (assets : List AssetDetail)
    (checkGroupTemplatesMap : Int → List CheckGroupTemplate)
    (checkItemTemplatesMap : Int → List CheckItemTemplate) (userId : String) (db : DB) :
    Option Err × DB :=
  match DB.Begin env db with
  | (.error err, db) => (some err, db)
  | (.ok tx, db) =>
    let err : Option Err := none
    let returned :=
      insertAssetChecks env tx checkGroupTemplatesMap checkItemTemplatesMap userId assets db
    let afterDefer := ProcessBatch.deferred env tx err returned.2
    (returned.1, afterDefer.2)

/-- Embedding of `const batchSize = 10`. -/
def batchSize : Nat := 10

/-- The loop of `ProcessAndInsertAssets` from index `i` on (helpers.go 185-197). -/
def ProcessAndInsertAssets.loop (env : Env) (assets : List AssetDetail)
    (checkGroupTemplatesMap : Int → List CheckGroupTemplate)
    (checkItemTemplatesMap : Int → List CheckItemTemplate) (userId : String)
    (i : Nat) (db : DB) : Option Err × DB :=
  if i < assets.length then
    let end_ := if i + batchSize > assets.length then assets.length else i + batchSize
    let batch := (assets.take end_).drop i
    match ProcessBatch env batch checkGroupTemplatesMap checkItemTemplatesMap userId db with
    | (some err, db) => (some err, db)
    | (none, db) =>
      ProcessAndInsertAssets.loop env assets checkGroupTemplatesMap checkItemTemplatesMap
        userId (i + batchSize) db
  else
    (none, db)
termination_by assets.length - i
decreasing_by
  simp only [batchSize]
  omega

/-- Embedding of `ProcessAndInsertAssets` (helpers.go 182-200). -/
def ProcessAndInsertAssets (env : Env) (assets : List AssetDetail)
    (checkGroupTemplatesMap : Int → List CheckGroupTemplate)
    (checkItemTemplatesMap : Int → List CheckItemTemplate) (userId : String) (db : DB) :
    Option Err × DB :=
  ProcessAndInsertAssets.loop env assets checkGroupTemplatesMap checkItemTemplatesMap userId 0 db

/-- Sequential processing of an explicit list of batches, one `ProcessBatch`
call (one transaction) per batch, halting at the first returned error. -/
def runBatches (env : Env)
    (checkGroupTemplatesMap : Int → List CheckGroupTemplate)
    (checkItemTemplatesMap : Int → List CheckItemTemplate) (userId : String) :
    List (List AssetDetail) → DB → Option Err × DB
  | [], db => (none, db)
  | batch :: rest, db =>
    match ProcessBatch env batch checkGroupTemplatesMap checkItemTemplatesMap userId db with
    | (some err, db) => (some err, db)
    | (none, db) => runBatches env checkGroupTemplatesMap checkItemTemplatesMap userId rest db

/-- The `k`-th batch of the partition: the assets at positions
`10k .. min (10k + 10) n - 1`. -/
def batchAt (assets : List AssetDetail) (k : Nat) : List AssetDetail :=
  (assets.take (min (batchSize * k + batchSize) assets.length)).drop (batchSize * k)

/-- The partition of the asset list into `ceil (n / 10)` consecutive batches. -/
def batches (assets : List AssetDetail) : List (List AssetDetail) :=
  (List.range ((assets.length + (batchSize - 1)) / batchSize)).map (batchAt assets)

/-! ## Traces of the provisioning engine -/

/-- The rows written by the successful inserts of a sequence of storage calls. -/
def rowsOf : List Event → List Row
  | [] => []
  | .exec _ stmt (.ok id) :: evs => ⟨id, stmt⟩ :: rowsOf evs
  | _ :: evs => rowsOf evs

/-- The state `db2` is reached from `db` by the storage calls `evs`, none of
which ends a transaction. -/
def Extends (db db2 : DB) (evs : List Event) : Prop :=
  db2.log = db.log ++ evs ∧ db2.pending = db.pending ++ rowsOf evs ∧
    db2.committed = db.committed

/-- The storage calls a run of `insertCheckItems` can make, with its result. -/
inductive ItemsTrace (env : Env) (tx : Nat) (checkGroupId : Int) :
    List CheckItemTemplate → Option Err → List Event → Prop where
  | done : ItemsTrace env tx checkGroupId [] none []
  | fail (t : CheckItemTemplate) (rest : List CheckItemTemplate) (ts c : Nat) (e : Err) :
      env.fault c = some e →
      ItemsTrace env tx checkGroupId (t :: rest) (some e)
        [.exec tx (.checkItem t.name checkGroupId "pass" ts) (.error e)]
  | step (t : CheckItemTemplate) (rest : List CheckItemTemplate) (ts : Nat) (id : Int)
      (r : Option Err) (evs : List Event) :
      ItemsTrace env tx checkGroupId rest r evs →
      ItemsTrace env tx checkGroupId (t :: rest) r
        (.exec tx (.checkItem t.name checkGroupId "pass" ts) (.ok id) :: evs)

/-- The storage calls a run of `insertCheckGroups` can make, with its result. -/
inductive GroupsTrace (env : Env) (tx : Nat) (imap : Int → List CheckItemTemplate)
    (assetCheckId : Int) : List CheckGroupTemplate → Option Err → List Event → Prop where
  | done : GroupsTrace env tx imap assetCheckId [] none []
  | execFail (t : CheckGroupTemplate) (rest : List CheckGroupTemplate) (c : Nat) (e : Err) :
      env.fault c = some e →
      GroupsTrace env tx imap assetCheckId (t :: rest) (some e)
        [.exec tx (.checkGroup t.name assetCheckId "pass") (.error e)]
  | idFail (t : CheckGroupTemplate) (rest : List CheckGroupTemplate) (gid : Int) (c : Nat)
      (e : Err) :
      env.fault c = some e →
      GroupsTrace env tx imap assetCheckId (t :: rest) (some e)
        [.exec tx (.checkGroup t.name assetCheckId "pass") (.ok gid), .lastInsertId (.error e)]
  | itemsFail (t : CheckGroupTemplate) (rest : List CheckGroupTemplate) (gid : Int) (e : Err)
      (items : List Event) :
      ItemsTrace env tx gid (imap t.id) (some e) items →
      GroupsTrace env tx imap assetCheckId (t :: rest) (some e)
        (.exec tx (.checkGroup t.name assetCheckId "pass") (.ok gid) ::
          .lastInsertId (.ok gid) :: items)
  | step (t : CheckGroupTemplate) (rest : List CheckGroupTemplate) (gid : Int)
      (items : List Event) (r : Option Err) (evs : List Event) :
      ItemsTrace env tx gid (imap t.id) none items →
      GroupsTrace env tx imap assetCheckId rest r evs →
      GroupsTrace env tx imap assetCheckId (t :: rest) r
        (.exec tx (.checkGroup t.name assetCheckId "pass") (.ok gid) ::
          .lastInsertId (.ok gid) :: (items ++ evs))

/-- The storage calls a run of `insertAssetChecks` can make, with its result. -/
inductive AssetsTrace (env : Env) (tx : Nat) (gmap : Int → List CheckGroupTemplate)
    (imap : Int → List CheckItemTemplate) (userId : String) :
    List AssetDetail → Option Err → List Event → Prop where
  | done : AssetsTrace env tx gmap imap userId [] none []
  | execFail (a : AssetDetail) (rest : List AssetDetail) (ts c : Nat) (e : Err) :
      env.fault c = some e →
      AssetsTrace env tx gmap imap userId (a :: rest) (some e)
        [.exec tx (.assetCheck a.id userId ts "pass") (.error e)]
  | idFail (a : AssetDetail) (rest : List AssetDetail) (ts : Nat) (aid : Int) (c : Nat)
      (e : Err) :
      env.fault c = some e →
      AssetsTrace env tx gmap imap userId (a :: rest) (some e)
        [.exec tx (.assetCheck a.id userId ts "pass") (.ok aid), .lastInsertId (.error e)]
  | groupsFail (a : AssetDetail) (rest : List AssetDetail) (ts : Nat) (aid : Int) (e : Err)
      (groups : List Event) :
      GroupsTrace env tx imap aid (gmap a.CategoryId) (some e) groups →
      AssetsTrace env tx gmap imap userId (a :: rest) (some e)
        (.exec tx (.assetCheck a.id userId ts "pass") (.ok aid) ::
          .lastInsertId (.ok aid) :: groups)
  | step (a : AssetDetail) (rest : List AssetDetail) (ts : Nat) (aid : Int)
      (groups : List Event) (r : Option Err) (evs : List Event) :
      GroupsTrace env tx imap aid (gmap a.CategoryId) none groups →
      AssetsTrace env tx gmap imap userId rest r evs →
      AssetsTrace env tx gmap imap userId (a :: rest) r
        (.exec tx (.assetCheck a.id userId ts "pass") (.ok aid) ::
          .lastInsertId (.ok aid) :: (groups ++ evs))

/-- The storage calls a run of `ProcessBatch` can make, with its result and the
rows it makes durable. -/
inductive BatchTrace (env : Env) (gmap : Int → List CheckGroupTemplate)
    (imap : Int → List CheckItemTemplate) (userId : String) :
    List AssetDetail → Option Err → List Event → List Row → Prop where
  | beginFail (assets : List AssetDetail) (c : Nat) (e : Err) :
      env.fault c = some e →
      BatchTrace env gmap imap userId assets (some e) [.begin (.error e)] []
  | ran (assets : List AssetDetail) (tx : Nat) (r : Option Err) (body : List Event) (c : Nat) :
      AssetsTrace env tx gmap imap userId assets r body →
      BatchTrace env gmap imap userId assets r
        (.begin (.ok tx) :: (body ++ [.commit tx (env.fault c)]))
        (if env.fault c = none then rowsOf body else [])

/-- The storage calls a run of `runBatches` can make, with its result and the
rows it makes durable. -/
inductive RunTrace (env : Env) (gmap : Int → List CheckGroupTemplate)
    (imap : Int → List CheckItemTemplate) (userId : String) :
    List (List AssetDetail) → Option Err → List Event → List Row → Prop where
  | done : RunTrace env gmap imap userId [] none [] []
  | halt (b : List AssetDetail) (rest : List (List AssetDetail)) (e : Err) (evs : List Event)
      (rows : List Row) :
      BatchTrace env gmap imap userId b (some e) evs rows →
      RunTrace env gmap imap userId (b :: rest) (some e) evs rows
  | step (b : List AssetDetail) (rest : List (List AssetDetail)) (evs : List Event)
      (rows : List Row) (r : Option Err) (evs' : List Event) (rows' : List Row) :
      BatchTrace env gmap imap userId b none evs rows →
      RunTrace env gmap imap userId rest r evs' rows' →
      RunTrace env gmap imap userId (b :: rest) r (evs ++ evs') (rows ++ rows')

/-! ## Reading traces -/

/-- The error of a failed write step: beginning a transaction, an insert, or
reading the assigned identifier. Commit and rollback are not write steps. -/
def Event.failure : Event → Option Err
  | .begin (.error e) => some e
  | .exec _ _ (.error e) => some e
  | .lastInsertId (.error e) => some e
  | _ => none

/-- The storage call is an insert (`tx.Exec`). -/
def Event.isInsert : Event → Bool
  | .exec _ _ _ => true
  | _ => false

/-- The storage call is `db.Begin()`. -/
def Event.isBegin : Event → Bool
  | .begin _ => true
  | _ => false

/-- The run that logged `evs` returned `r`: without error no write step failed;
with error `e` the first failed write step failed with `e`, and only commits
follow it. -/
def Halted (r : Option Err) (evs : List Event) : Prop :=
  match r with
  | none => ∀ x ∈ evs, x.failure = none
  | some e => ∃ pre ev post, evs = pre ++ ev :: post ∧ (∀ x ∈ pre, x.failure = none) ∧
      ev.failure = some e ∧ ∀ x ∈ post, ∃ tx out, x = .commit tx out

/-- The storage call is one made for an asset after its AssetCheck insert:
a CheckGroup or CheckItem insert, or the read of an assigned identifier. -/
def Event.belowAssetCheck : Event → Bool
  | .exec _ (.checkGroup _ _ _) _ => true
  | .exec _ (.checkItem _ _ _ _) _ => true
  | .lastInsertId _ => true
  | _ => false

/-- The storage call is a CheckItem insert. -/
def Event.belowCheckGroup : Event → Bool
  | .exec _ (.checkItem _ _ _ _) _ => true
  | _ => false

/-- The storage call is an insert of transaction `tx` or the read of an
assigned identifier. -/
def Event.inTx (tx : Nat) : Event → Bool
  | .exec tx2 _ _ => tx2 == tx
  | .lastInsertId _ => true
  | _ => false

/-- In the calls `before`, the most recent AssetCheck insert was made in
transaction `tx`, succeeded and returned the identifier `fk`; since then only
CheckGroup and CheckItem inserts and identifier reads were made. -/
def ParentAssetCheck (tx : Nat) (fk : Int) (before : List Event) : Prop :=
  ∃ p1 p2 assetId owner ts status,
    before = p1 ++ .exec tx (.assetCheck assetId owner ts status) (.ok fk) ::
      .lastInsertId (.ok fk) :: p2 ∧
    ∀ x ∈ p2, x.belowAssetCheck = true

/-- In the calls `before`, the most recent CheckGroup insert was made in
transaction `tx`, succeeded and returned the identifier `fk`; since then only
CheckItem inserts were made. -/
def ParentCheckGroup (tx : Nat) (fk : Int) (before : List Event) : Prop :=
  ∃ p1 p2 name assetCheckId status,
    before = p1 ++ .exec tx (.checkGroup name assetCheckId status) (.ok fk) ::
      .lastInsertId (.ok fk) :: p2 ∧
    ∀ x ∈ p2, x.belowCheckGroup = true

/-- The storage call `ev` has its parent row among the calls `before`. -/
def Parented (before : List Event) : Event → Prop
  | .exec tx (.checkGroup _ fk _) _ => ParentAssetCheck tx fk before
  | .exec tx (.checkItem _ fk _ _) _ => ParentCheckGroup tx fk before
  | _ => True

/-- Every call of `evs` has its parent row among the calls made before it,
where `ctx` are the calls made before `evs`. -/
def WellParented (ctx evs : List Event) : Prop :=
  ∀ pre x post, evs = pre ++ x :: post → Parented (ctx ++ pre) x

/-! ## The materialised record tree -/

/-- No storage call fails. -/
def NoFault (env : Env) : Prop :=
  ∀ n, env.fault n = none

/-- A created CheckItem row: assigned identifier, name, timestamp. -/
structure ItemRec where
  id : Int
  name : String
  updatedAt : Nat

/-- A created CheckGroup row with the CheckItem rows created under it. -/
structure GroupRec where
  id : Int
  name : String
  items : List ItemRec

/-- A created AssetCheck row with the CheckGroup rows created under it. -/
structure AssetRec where
  id : Int
  assetId : Int
  owner : String
  updatedAt : Nat
  groups : List GroupRec

/-- The CheckItem row of a record, referencing CheckGroup `checkGroupId`. -/
def ItemRec.row (checkGroupId : Int) (i : ItemRec) : Row :=
  ⟨i.id, .checkItem i.name checkGroupId "pass" i.updatedAt⟩

/-- The rows of a CheckGroup record in insertion order: the CheckGroup row,
referencing AssetCheck `assetCheckId`, then its CheckItem rows, referencing it. -/
def GroupRec.rows (assetCheckId : Int) (g : GroupRec) : List Row :=
  ⟨g.id, .checkGroup g.name assetCheckId "pass"⟩ :: g.items.map (ItemRec.row g.id)

/-- The rows of an AssetCheck record in insertion order: the AssetCheck row,
then the rows of its CheckGroup records, referencing it. -/
def AssetRec.rows (r : AssetRec) : List Row :=
  ⟨r.id, .assetCheck r.assetId r.owner r.updatedAt "pass"⟩ ::
    (r.groups.map (GroupRec.rows r.id)).flatten

/-- A CheckGroup record without identifiers and timestamps: its name and the
names of its items. -/
def GroupRec.shape (g : GroupRec) : String × List String :=
  (g.name, g.items.map (·.name))

/-- An AssetCheck record without identifiers and timestamps: asset, owner and
the shapes of its groups. -/
def AssetRec.shape (r : AssetRec) : Int × String × List (String × List String) :=
  (r.assetId, r.owner, r.groups.map GroupRec.shape)

/-- The record tree the templates prescribe: per asset one AssetCheck for the
user, under it one CheckGroup per check-group template of the asset's category,
under each one CheckItem per check-item template of that template. -/
def templateTree (assets : List AssetDetail) (gmap : Int → List CheckGroupTemplate)
    (imap : Int → List CheckItemTemplate) (userId : String) :
    List (Int × String × List (String × List String)) :=
  assets.map fun asset =>
    (asset.id, userId,
      (gmap asset.CategoryId).map fun g => (g.name, (imap g.id).map (·.name)))

/-- The asset identifiers of the AssetCheck inserts among the storage calls. -/
def assetIdsOf : List Event → List Int
  | [] => []
  | .exec _ (.assetCheck assetId _ _ _) _ :: evs => assetId :: assetIdsOf evs
  | _ :: evs => assetIdsOf evs

/-- The storage calls of one committed transaction `tx` with inner calls `body`. -/
def committedTx (seg : Nat × List Event) : List Event :=
  .begin (.ok seg.1) :: (seg.2 ++ [.commit seg.1 none])

/-- The row is an AssetCheck row. -/
def Row.isAssetCheck (r : Row) : Bool :=
  match r.data with
  | .assetCheck _ _ _ _ => true
  | _ => false

/-- The row is a CheckGroup row. -/
def Row.isCheckGroup (r : Row) : Bool :=
  match r.data with
  | .checkGroup _ _ _ => true
  | _ => false

/-- The row is a CheckItem row. -/
def Row.isCheckItem (r : Row) : Bool :=
  match r.data with
  | .checkItem _ _ _ _ => true
  | _ => false

/-! ## Concrete inputs -/

/-- A store with no rows and no storage call made yet. -/
def emptyDB : DB := ⟨0, [], [], []⟩

/-- A backend on which exactly the storage call number `k` fails, with error `e`. -/
def faultAt (k : Nat) (e : Err) : Env :=
  ⟨fun n => if n = k then some e else none, fun n => 100 + (n : Int)⟩

/-- A backend on which no storage call fails. -/
def reliable : Env :=
  ⟨fun _ => none, fun n => 100 + (n : Int)⟩

/-- An asset of category `5`. -/
def asset1 : AssetDetail := ⟨1, 7, 5⟩

/-- Another asset of category `5`. -/
def asset2 : AssetDetail := ⟨2, 7, 5⟩

/-- Category `5` has one check-group template. -/
def sampleGroups : Int → List CheckGroupTemplate :=
  fun c => if c = 5 then [⟨50, "Brakes", 5⟩] else []

/-- Check-group template `50` has one check-item template. -/
def sampleItems : Int → List CheckItemTemplate :=
  fun g => if g = 50 then [⟨500, "Pads", 50⟩] else []

/-- The storage calls of provisioning `asset1` with the sample templates on
the reliable backend. -/
def sampleLog : List Event :=
  [.begin (.ok 0),
   .exec 0 (.assetCheck 1 "u" 1 "pass") (.ok 101), .lastInsertId (.ok 101),
   .exec 0 (.checkGroup "Brakes" 101 "pass") (.ok 103), .lastInsertId (.ok 103),
   .exec 0 (.checkItem "Pads" 103 "pass" 5) (.ok 105),
   .commit 0 none]

end Helpers

namespace Helpers

/-! ## Location expansion: lemmas -/

theorem selectChildIds_nil (table : List Location) : selectChildIds table [] = [] := by
  unfold selectChildIds
  induction table with
  | nil => rfl
  | cons l t ih =>
    cases h : l.parentId <;> simp_all [List.filter_cons]

theorem mem_selectChildIds {table : List Location} {F : List Int} {x : Int} :
    x ∈ selectChildIds table F ↔ ∃ p ∈ F, IsChild table p x := by
  unfold selectChildIds IsChild
  simp only [List.mem_map, List.mem_filter]
  constructor
  · rintro ⟨l, ⟨hl, hp⟩, rfl⟩
    obtain ⟨i, par⟩ := l
    cases par with
    | none => simp at hp
    | some p => exact ⟨p, by simpa using hp, hl⟩
  · rintro ⟨p, hp, hl⟩
    exact ⟨⟨x, some p⟩, ⟨hl, by simpa using hp⟩, rfl⟩

theorem level_shift (table : List Location) (F : List Int) (n : Nat) :
    level table (level table F 1) n = level table F (n + 1) := by
  induction n with
  | zero => rfl
  | succ n ih => simp only [level] at ih ⊢; rw [ih]

theorem level_succ_of_nil {table : List Location} {F : List Int} {n : Nat}
    (h : level table F n = []) : level table F (n + 1) = [] := by
  simp only [level, h, selectChildIds_nil]

theorem levelsUpTo_succ_shift (table : List Location) (F : List Int) (k : Nat) :
    levelsUpTo table F (k + 1) = level table F 1 ++ levelsUpTo table (level table F 1) k := by
  unfold levelsUpTo
  rw [List.range_succ_eq_map]
  simp only [List.map_cons, List.flatten_cons, List.map_map]
  congr 2
  apply List.map_congr_left
  intro i _
  simp only [Function.comp, level_shift]

theorem expansion_succ_shift (table : List Location) (F : List Int) (k : Nat) :
    expansion table F (k + 1) = level table F 1 ++ expansion table (level table F 1) k := by
  unfold expansion
  simp only [Nat.succ_ne_zero, if_false]
  cases k with
  | zero => simp [levelsUpTo, List.range_succ]
  | succ k =>
    rw [levelsUpTo_succ_shift table F (k + 1), level_shift table F (k + 1)]
    simp [List.append_assoc]

/-- The run of `FetchChildLocations` over a store all of whose queries succeed,
when level `k` is the last non-empty one. -/
theorem FetchChildLocations_levels (table : List Location) :
    ∀ (k : Nat) (F : List Int), level table F k ≠ [] → level table F (k + 1) = [] →
      ∀ fuel, k < fuel →
        FetchChildLocations (locationsDb table) fuel F = some (.ok (expansion table F k)) := by
  intro k
  induction k with
  | zero =>
    intro F _ h1 fuel hf
    obtain ⟨f, rfl⟩ : ∃ f, fuel = f + 1 := ⟨fuel - 1, by omega⟩
    have h1' : selectChildIds table F = [] := h1
    simp [FetchChildLocations, locationsDb, h1', expansion]
  | succ k ih =>
    intro F hk hk1 fuel hf
    obtain ⟨f, rfl⟩ : ∃ f, fuel = f + 1 := ⟨fuel - 1, by omega⟩
    have hne : level table F 1 ≠ [] := by
      intro h0
      apply hk
      clear hk hk1 ih hf
      induction k with
      | zero => exact h0
      | succ k ihk => exact level_succ_of_nil ihk
    have hne' : selectChildIds table F ≠ [] := hne
    have hrec := ih (level table F 1) (by rw [level_shift]; exact hk)
      (by rw [level_shift]; exact hk1) f (by omega)
    have hrec' : FetchChildLocations (locationsDb table) f (selectChildIds table F)
        = some (.ok (expansion table (level table F 1) k)) := hrec
    rw [expansion_succ_shift]
    simp [FetchChildLocations, locationsDb, hne', hrec', level]

theorem mem_level_descendant (table : List Location) (F : List Int) :
    ∀ (n : Nat) (x : Int), x ∈ level table F (n + 1) → ∃ f ∈ F, Descendant table f x := by
  intro n
  induction n with
  | zero =>
    intro x hx
    obtain ⟨p, hp, hc⟩ := mem_selectChildIds.mp hx
    exact ⟨p, hp, Relation.TransGen.single hc⟩
  | succ n ih =>
    intro x hx
    obtain ⟨p, hp, hc⟩ := mem_selectChildIds.mp hx
    obtain ⟨f, hf, hd⟩ := ih p hp
    exact ⟨f, hf, Relation.TransGen.tail hd hc⟩

/-- Every member of level `n + 1` ends an ancestor chain of `n + 1` stored rows. -/
theorem exists_ancestor_path (table : List Location) (F : List Int) :
    ∀ (n : Nat) (x : Int), x ∈ level table F (n + 1) →
      ∃ path : List Int, path.length = n + 1 ∧
        List.Chain' (Function.swap (IsChild table)) path ∧ path.head? = some x ∧
        ∀ y ∈ path, y ∈ table.map (·.id) := by
  intro n
  induction n with
  | zero =>
    intro x hx
    obtain ⟨p, _, hc⟩ := mem_selectChildIds.mp hx
    refine ⟨[x], rfl, List.chain'_singleton x, rfl, ?_⟩
    intro y hy
    rw [List.mem_singleton] at hy
    subst hy
    exact List.mem_map.mpr ⟨_, hc, rfl⟩
  | succ n ih =>
    intro x hx
    obtain ⟨p, hp, hc⟩ := mem_selectChildIds.mp hx
    obtain ⟨path, hlen, hchain, hhead, hmem⟩ := ih p hp
    refine ⟨x :: path, by simp [hlen], ?_, rfl, ?_⟩
    · apply List.Chain'.cons' hchain
      intro y hy
      rw [hhead] at hy
      cases hy
      exact hc
    · intro y hy
      rcases List.mem_cons.mp hy with rfl | hy
      · exact List.mem_map.mpr ⟨_, hc, rfl⟩
      · exact hmem y hy

/-- In a store without cycles the frontier is empty after more rounds than
there are rows. -/
theorem level_nil_of_acyclic {table : List Location} (hac : Acyclic table) (F : List Int) :
    level table F (table.length + 1) = [] := by
  rw [List.eq_nil_iff_forall_not_mem]
  intro x hx
  obtain ⟨path, hlen, hchain, _, hmem⟩ := exists_ancestor_path table F table.length x hx
  have hnd : ¬ path.Nodup := by
    intro hnd
    have h1 := (List.Nodup.subperm hnd hmem).length_le
    rw [hlen, List.length_map] at h1
    omega
  obtain ⟨d, hd⟩ := List.exists_duplicate_iff_not_nodup.mpr hnd
  have hsub := List.duplicate_iff_sublist.mp hd
  have hchainT : List.Chain' (Relation.TransGen (Function.swap (IsChild table))) path :=
    hchain.imp fun _ _ h => Relation.TransGen.single h
  have hpw := (List.chain'_iff_pairwise.mp hchainT).sublist hsub
  have hdd : Relation.TransGen (Function.swap (IsChild table)) d d := by
    simpa using hpw
  exact hac d (Relation.transGen_swap.mp hdd)

theorem exists_last_level {table : List Location} (hac : Acyclic table) {F : List Int}
    (hF : F ≠ []) : ∃ k, level table F k ≠ [] ∧ level table F (k + 1) = [] := by
  have hex : ∃ n, level table F n = [] := ⟨_, level_nil_of_acyclic hac F⟩
  have hspec := Nat.find_spec hex
  have hmin := fun m => Nat.find_min hex (m := m)
  cases hn : Nat.find hex with
  | zero => rw [hn] at hspec; exact absurd hspec hF
  | succ k =>
    rw [hn] at hspec
    exact ⟨k, hmin k (by omega), hspec⟩

/-- A height function that decreases from parent to child rules out cycles. -/
theorem acyclic_of_height (table : List Location) (height : Int → Nat)
    (h : ∀ l ∈ table, ∀ p, l.parentId = some p → height l.id < height p) : Acyclic table := by
  have hlt : ∀ a d, Descendant table a d → height d < height a := by
    intro a d hd
    induction hd with
    | single hc => exact h _ hc _ rfl
    | tail _ hc ih => exact lt_trans (h _ hc _ rfl) ih
  intro x hx
  exact lt_irrefl _ (hlt x x hx)

theorem mem_levelsUpTo {table : List Location} {F : List Int} {k : Nat} {x : Int} :
    x ∈ levelsUpTo table F k ↔ ∃ i, i < k ∧ x ∈ level table F (i + 1) := by
  simp [levelsUpTo]

theorem mem_expansion_descendant {table : List Location} {F : List Int} {k : Nat}
    (hk : k ≠ 0) {x : Int} (hx : x ∈ expansion table F k) : ∃ f ∈ F, Descendant table f x := by
  unfold expansion at hx
  rw [if_neg hk, List.mem_append] at hx
  rcases hx with hx | hx
  · obtain ⟨i, _, hi⟩ := mem_levelsUpTo.mp hx
    exact mem_level_descendant table F i x hi
  · obtain ⟨j, rfl⟩ : ∃ j, k = j + 1 := ⟨k - 1, by omega⟩
    exact mem_level_descendant table F j x hx

theorem two_le_count_expansion {table : List Location} {F : List Int} {k : Nat}
    (hk : k ≠ 0) {x : Int} (hx : x ∈ level table F k) : 2 ≤ (expansion table F k).count x := by
  obtain ⟨j, rfl⟩ : ∃ j, k = j + 1 := ⟨k - 1, by omega⟩
  unfold expansion levelsUpTo
  rw [if_neg hk, List.range_succ, List.map_append, List.flatten_append]
  simp only [List.map_cons, List.map_nil, List.flatten_cons, List.flatten_nil, List.append_nil,
    List.count_append]
  have := List.count_pos_iff.mpr hx
  omega

/-! ## Provisioning engine: the runs conform to the traces -/

theorem rowsOf_append (xs ys : List Event) : rowsOf (xs ++ ys) = rowsOf xs ++ rowsOf ys := by
  induction xs with
  | nil => rfl
  | cons x xs ih =>
    cases x with
    | exec tx stmt out => cases out <;> simp [rowsOf, ih]
    | _ => simp [rowsOf, ih]

theorem Extends.refl (db : DB) : Extends db db [] := by
  simp [Extends, rowsOf]

theorem Extends.trans {db db1 db2 : DB} {e1 e2 : List Event}
    (h1 : Extends db db1 e1) (h2 : Extends db1 db2 e2) : Extends db db2 (e1 ++ e2) := by
  obtain ⟨a1, b1, c1⟩ := h1
  obtain ⟨a2, b2, c2⟩ := h2
  refine ⟨?_, ?_, ?_⟩
  · rw [a2, a1, List.append_assoc]
  · rw [b2, b1, rowsOf_append, List.append_assoc]
  · rw [c2, c1]

theorem Extends.step {db db1 db2 : DB} {ev : Event} {e2 : List Event}
    (h1 : Extends db db1 [ev]) (h2 : Extends db1 db2 e2) : Extends db db2 (ev :: e2) :=
  Extends.trans h1 h2

theorem Tx.Exec_ok {env : Env} {db : DB} (tx : Nat) (stmt : Insert)
    (hf : env.fault db.clock = none) :
    ∃ db1, Tx.Exec env tx stmt db = (.ok (env.newId db.clock), db1) ∧
      Extends db db1 [.exec tx stmt (.ok (env.newId db.clock))] := by
  simp only [Tx.Exec, hf]
  exact ⟨_, rfl, by simp [Extends, DB.record, rowsOf]⟩

theorem Tx.Exec_fail {env : Env} {db : DB} (tx : Nat) (stmt : Insert) {e : Err}
    (hf : env.fault db.clock = some e) :
    ∃ db1, Tx.Exec env tx stmt db = (.error e, db1) ∧
      Extends db db1 [.exec tx stmt (.error e)] := by
  simp only [Tx.Exec, hf]
  exact ⟨_, rfl, by simp [Extends, DB.record, rowsOf]⟩

theorem Result.LastInsertId_ok {env : Env} {db : DB} (result : Int)
    (hf : env.fault db.clock = none) :
    ∃ db1, Result.LastInsertId env result db = (.ok result, db1) ∧
      Extends db db1 [.lastInsertId (.ok result)] := by
  simp only [Result.LastInsertId, hf]
  exact ⟨_, rfl, by simp [Extends, DB.record, rowsOf]⟩

theorem Result.LastInsertId_fail {env : Env} {db : DB} (result : Int) {e : Err}
    (hf : env.fault db.clock = some e) :
    ∃ db1, Result.LastInsertId env result db = (.error e, db1) ∧
      Extends db db1 [.lastInsertId (.error e)] := by
  simp only [Result.LastInsertId, hf]
  exact ⟨_, rfl, by simp [Extends, DB.record, rowsOf]⟩

theorem insertCheckItems_trace (env : Env) (tx : Nat) (gid : Int) :
    ∀ (items : List CheckItemTemplate) (db : DB),
      ∃ evs, Extends db (insertCheckItems env tx gid items db).2 evs ∧
        ItemsTrace env tx gid items (insertCheckItems env tx gid items db).1 evs := by
  intro items
  induction items with
  | nil => intro db; exact ⟨[], Extends.refl db, .done⟩
  | cons t rest ih =>
    intro db
    cases hf : env.fault db.clock with
    | some e =>
      obtain ⟨db1, hx, hext⟩ := Tx.Exec_fail tx (.checkItem t.name gid "pass" db.clock) hf
      simp only [insertCheckItems, hx]
      exact ⟨_, hext, .fail t rest db.clock db.clock e hf⟩
    | none =>
      obtain ⟨db1, hx, hext⟩ := Tx.Exec_ok tx (.checkItem t.name gid "pass" db.clock) hf
      obtain ⟨evs, h1, h2⟩ := ih db1
      simp only [insertCheckItems, hx]
      exact ⟨_, hext.step h1, .step t rest db.clock _ _ evs h2⟩

theorem insertCheckGroups_trace (env : Env) (tx : Nat) (imap : Int → List CheckItemTemplate)
    (aid : Int) :
    ∀ (groups : List CheckGroupTemplate) (db : DB),
      ∃ evs, Extends db (insertCheckGroups env tx imap aid groups db).2 evs ∧
        GroupsTrace env tx imap aid groups (insertCheckGroups env tx imap aid groups db).1 evs := by
  intro groups
  induction groups with
  | nil => intro db; exact ⟨[], Extends.refl db, .done⟩
  | cons t rest ih =>
    intro db
    cases hf : env.fault db.clock with
    | some e =>
      obtain ⟨db1, hx, hext⟩ := Tx.Exec_fail tx (.checkGroup t.name aid "pass") hf
      simp only [insertCheckGroups, hx]
      exact ⟨_, hext, .execFail t rest db.clock e hf⟩
    | none =>
      obtain ⟨db1, hx, hext⟩ := Tx.Exec_ok tx (.checkGroup t.name aid "pass") hf
      cases hf1 : env.fault db1.clock with
      | some e =>
        obtain ⟨db2, hx2, hext2⟩ := Result.LastInsertId_fail (env.newId db.clock) hf1
        simp only [insertCheckGroups, hx, hx2]
        exact ⟨_, hext.step hext2, .idFail t rest _ db1.clock e hf1⟩
      | none =>
        obtain ⟨db2, hx2, hext2⟩ := Result.LastInsertId_ok (env.newId db.clock) hf1
        obtain ⟨items, hi1, hi2⟩ := insertCheckItems_trace env tx (env.newId db.clock)
          (imap t.id) db2
        cases hr : insertCheckItems env tx (env.newId db.clock) (imap t.id) db2 with
        | mk r db3 =>
          rw [hr] at hi1 hi2
          cases r with
          | some e =>
            simp only [insertCheckGroups, hx, hx2, hr]
            exact ⟨_, hext.step (hext2.step hi1), .itemsFail t rest _ e items hi2⟩
          | none =>
            obtain ⟨evs, h1, h2⟩ := ih db3
            simp only [insertCheckGroups, hx, hx2, hr]
            exact ⟨_, hext.step (hext2.step (hi1.trans h1)), .step t rest _ items _ evs hi2 h2⟩

theorem insertAssetChecks_trace (env : Env) (tx : Nat) (gmap : Int → List CheckGroupTemplate)
    (imap : Int → List CheckItemTemplate) (userId : String) :
    ∀ (assets : List AssetDetail) (db : DB),
      ∃ evs, Extends db (insertAssetChecks env tx gmap imap userId assets db).2 evs ∧
        AssetsTrace env tx gmap imap userId assets
          (insertAssetChecks env tx gmap imap userId assets db).1 evs := by
  intro assets
  induction assets with
  | nil => intro db; exact ⟨[], Extends.refl db, .done⟩
  | cons a rest ih =>
    intro db
    cases hf : env.fault db.clock with
    | some e =>
      obtain ⟨db1, hx, hext⟩ := Tx.Exec_fail tx (.assetCheck a.id userId db.clock "pass") hf
      simp only [insertAssetChecks, hx]
      exact ⟨_, hext, .execFail a rest db.clock db.clock e hf⟩
    | none =>
      obtain ⟨db1, hx, hext⟩ := Tx.Exec_ok tx (.assetCheck a.id userId db.clock "pass") hf
      cases hf1 : env.fault db1.clock with
      | some e =>
        obtain ⟨db2, hx2, hext2⟩ := Result.LastInsertId_fail (env.newId db.clock) hf1
        simp only [insertAssetChecks, hx, hx2]
        exact ⟨_, hext.step hext2, .idFail a rest db.clock _ db1.clock e hf1⟩
      | none =>
        obtain ⟨db2, hx2, hext2⟩ := Result.LastInsertId_ok (env.newId db.clock) hf1
        obtain ⟨groups, hg1, hg2⟩ := insertCheckGroups_trace env tx imap (env.newId db.clock)
          (gmap a.CategoryId) db2
        cases hr : insertCheckGroups env tx imap (env.newId db.clock) (gmap a.CategoryId) db2 with
        | mk r db3 =>
          rw [hr] at hg1 hg2
          cases r with
          | some e =>
            simp only [insertAssetChecks, hx, hx2, hr]
            exact ⟨_, hext.step (hext2.step hg1), .groupsFail a rest db.clock _ e groups hg2⟩
          | none =>
            obtain ⟨evs, h1, h2⟩ := ih db3
            simp only [insertAssetChecks, hx, hx2, hr]
            exact ⟨_, hext.step (hext2.step (hg1.trans h1)),
              .step a rest db.clock _ groups _ evs hg2 h2⟩

theorem ProcessBatch_trace (env : Env) (gmap : Int → List CheckGroupTemplate)
    (imap : Int → List CheckItemTemplate) (userId : String) (assets : List AssetDetail)
    (db : DB) :
    ∃ evs rows, (ProcessBatch env assets gmap imap userId db).2.log = db.log ++ evs ∧
      (ProcessBatch env assets gmap imap userId db).2.committed = db.committed ++ rows ∧
      BatchTrace env gmap imap userId assets (ProcessBatch env assets gmap imap userId db).1
        evs rows := by
  cases hf : env.fault db.clock with
  | some e =>
    refine ⟨[.begin (.error e)], [], ?_, ?_, ?_⟩
    · simp [ProcessBatch, DB.Begin, hf, DB.record]
    · simp [ProcessBatch, DB.Begin, hf, DB.record]
    · simp only [ProcessBatch, DB.Begin, hf]
      exact .beginFail assets db.clock e hf
  | none =>
    obtain ⟨body, ⟨hlog, hpend, hcomm⟩, htr⟩ := insertAssetChecks_trace env db.clock gmap imap
      userId assets { db.record (.begin (.ok db.clock)) with pending := [] }
    generalize hrun : insertAssetChecks env db.clock gmap imap userId assets
      { db.record (.begin (.ok db.clock)) with pending := [] } = run at hlog hpend hcomm htr
    obtain ⟨r, db2⟩ := run
    simp only [DB.record] at hlog hpend hcomm
    simp only at htr
    refine ⟨.begin (.ok db.clock) :: (body ++ [.commit db.clock (env.fault db2.clock)]),
      if env.fault db2.clock = none then rowsOf body else [], ?_, ?_, ?_⟩
    · simp only [ProcessBatch, DB.Begin, hf, hrun, ProcessBatch.deferred, Tx.Commit]
      cases hc : env.fault db2.clock <;> simp [DB.record, hlog]
    · simp only [ProcessBatch, DB.Begin, hf, hrun, ProcessBatch.deferred, Tx.Commit]
      cases hc : env.fault db2.clock <;> simp [DB.record, hcomm, hpend]
    · simp only [ProcessBatch, DB.Begin, hf, hrun]
      exact .ran assets db.clock r body db2.clock htr

theorem runBatches_trace (env : Env) (gmap : Int → List CheckGroupTemplate)
    (imap : Int → List CheckItemTemplate) (userId : String) :
    ∀ (bs : List (List AssetDetail)) (db : DB),
      ∃ evs rows, (runBatches env gmap imap userId bs db).2.log = db.log ++ evs ∧
        (runBatches env gmap imap userId bs db).2.committed = db.committed ++ rows ∧
        RunTrace env gmap imap userId bs (runBatches env gmap imap userId bs db).1 evs rows := by
  intro bs
  induction bs with
  | nil => intro db; exact ⟨[], [], by simp [runBatches], by simp [runBatches], .done⟩
  | cons b rest ih =>
    intro db
    obtain ⟨evs, rows, h1, h2, h3⟩ := ProcessBatch_trace env gmap imap userId b db
    generalize hrun : ProcessBatch env b gmap imap userId db = run at h1 h2 h3
    obtain ⟨r, db1⟩ := run
    simp only at h1 h2 h3
    cases r with
    | some e =>
      simp only [runBatches, hrun]
      exact ⟨evs, rows, h1, h2, .halt b rest e evs rows h3⟩
    | none =>
      obtain ⟨evs', rows', k1, k2, k3⟩ := ih db1
      simp only [runBatches, hrun]
      refine ⟨evs ++ evs', rows ++ rows', ?_, ?_, .step b rest evs rows _ evs' rows' h3 k3⟩
      · rw [k1, h1, List.append_assoc]
      · rw [k2, h2, List.append_assoc]

/-- The loop of `ProcessAndInsertAssets`, entered at the start of batch `j`,
processes the remaining batches in order. -/
theorem loop_eq_runBatches (env : Env) (gmap : Int → List CheckGroupTemplate)
    (imap : Int → List CheckItemTemplate) (userId : String) (assets : List AssetDetail) :
    ∀ (m j : Nat) (db : DB), j + m = (assets.length + (batchSize - 1)) / batchSize →
      ProcessAndInsertAssets.loop env assets gmap imap userId (batchSize * j) db =
        runBatches env gmap imap userId ((List.range' j m).map (batchAt assets)) db := by
  intro m
  induction m with
  | zero =>
    intro j db hj
    have hge : ¬ batchSize * j < assets.length := by
      simp only [batchSize] at hj ⊢
      omega
    rw [ProcessAndInsertAssets.loop, if_neg hge]
    rfl
  | succ m ih =>
    intro j db hj
    have hlt : batchSize * j < assets.length := by
      simp only [batchSize] at hj ⊢
      omega
    have hend : (if batchSize * j + batchSize > assets.length then assets.length
        else batchSize * j + batchSize) = min (batchSize * j + batchSize) assets.length := by
      split <;> omega
    rw [ProcessAndInsertAssets.loop, if_pos hlt]
    simp only [hend, List.range'_succ, List.map_cons, runBatches]
    have hrec : ∀ db1, ProcessAndInsertAssets.loop env assets gmap imap userId
        (batchSize * j + batchSize) db1 =
        runBatches env gmap imap userId ((List.range' (j + 1) m).map (batchAt assets)) db1 := by
      intro db1
      have := ih (j + 1) db1 (by omega)
      rwa [Nat.mul_add, Nat.mul_one] at this
    show (match ProcessBatch env (batchAt assets j) gmap imap userId db with
      | (some err, db) => (some err, db)
      | (none, db) => ProcessAndInsertAssets.loop env assets gmap imap userId
          (batchSize * j + batchSize) db) = _
    cases ProcessBatch env (batchAt assets j) gmap imap userId db with
    | mk r db1 =>
      cases r with
      | some e => rfl
      | none => exact hrec db1

theorem ProcessAndInsertAssets_eq_runBatches (env : Env) (gmap : Int → List CheckGroupTemplate)
    (imap : Int → List CheckItemTemplate) (userId : String) (assets : List AssetDetail)
    (db : DB) :
    ProcessAndInsertAssets env assets gmap imap userId db =
      runBatches env gmap imap userId (batches assets) db := by
  have h := loop_eq_runBatches env gmap imap userId assets
    ((assets.length + (batchSize - 1)) / batchSize) 0 db (by omega)
  rw [Nat.mul_zero] at h
  rw [ProcessAndInsertAssets, h, batches, List.range_eq_range']

/-! ## Halting on the first failed write step -/

theorem first_split_unique {α : Type} (p : α → Prop) :
    ∀ (pre pre2 : List α) {x x2 : α} {post post2 : List α},
      pre ++ x :: post = pre2 ++ x2 :: post2 → (∀ y ∈ pre, ¬ p y) → p x →
      (∀ y ∈ pre2, ¬ p y) → p x2 → pre = pre2 ∧ x = x2 ∧ post = post2 := by
  intro pre
  induction pre with
  | nil =>
    intro pre2 x x2 post post2 h _ hx h2 _
    cases pre2 with
    | nil =>
      simp only [List.nil_append, List.cons.injEq] at h
      exact ⟨rfl, h.1, h.2⟩
    | cons y ys =>
      simp only [List.nil_append, List.cons_append, List.cons.injEq] at h
      exact absurd (h.1 ▸ hx) (h2 y (List.mem_cons_self _ _))
  | cons a as ih =>
    intro pre2 x x2 post post2 h h1 hx h2 hx2
    cases pre2 with
    | nil =>
      simp only [List.nil_append, List.cons_append, List.cons.injEq] at h
      exact absurd (h.1 ▸ hx2) (h1 a (List.mem_cons_self _ _))
    | cons y ys =>
      simp only [List.cons_append, List.cons.injEq] at h
      obtain ⟨h3, h4, h5⟩ := ih ys h.2 (fun z hz => h1 z (List.mem_cons_of_mem _ hz)) hx
        (fun z hz => h2 z (List.mem_cons_of_mem _ hz)) hx2
      exact ⟨by rw [h.1, h3], h4, h5⟩

theorem Halted.none_nil : Halted none [] := by
  simp [Halted]

theorem Halted.cons_ok {r : Option Err} {x : Event} {evs : List Event}
    (hx : x.failure = none) (h : Halted r evs) : Halted r (x :: evs) := by
  cases r with
  | none =>
    intro y hy
    rcases List.mem_cons.mp hy with rfl | hy
    · exact hx
    · exact h y hy
  | some e =>
    obtain ⟨pre, ev, post, h1, h2, h3, h4⟩ := h
    refine ⟨x :: pre, ev, post, by rw [h1]; rfl, ?_, h3, h4⟩
    intro y hy
    rcases List.mem_cons.mp hy with rfl | hy
    · exact hx
    · exact h2 y hy

theorem Halted.fail_singleton {x : Event} {e : Err} (hx : x.failure = some e) :
    Halted (some e) [x] :=
  ⟨[], x, [], rfl, by simp, hx, by simp⟩

theorem Halted.append_ok {r : Option Err} {e1 e2 : List Event}
    (h1 : Halted none e1) (h2 : Halted r e2) : Halted r (e1 ++ e2) := by
  induction e1 with
  | nil => exact h2
  | cons x xs ih =>
    exact Halted.cons_ok (h1 x (List.mem_cons_self _ _))
      (ih fun y hy => h1 y (List.mem_cons_of_mem _ hy))

theorem Halted.snoc_commit {r : Option Err} {evs : List Event} (tx : Nat) (out : Option Err)
    (h : Halted r evs) : Halted r (evs ++ [.commit tx out]) := by
  cases r with
  | none =>
    intro y hy
    rcases List.mem_append.mp hy with hy | hy
    · exact h y hy
    · rw [List.mem_singleton] at hy
      subst hy
      rfl
  | some e =>
    obtain ⟨pre, ev, post, h1, h2, h3, h4⟩ := h
    refine ⟨pre, ev, post ++ [.commit tx out], by rw [h1]; simp, h2, h3, ?_⟩
    intro y hy
    rcases List.mem_append.mp hy with hy | hy
    · exact h4 y hy
    · rw [List.mem_singleton] at hy
      exact ⟨tx, out, hy⟩

theorem ItemsTrace.itemsHalted {env : Env} {tx : Nat} {gid : Int} {items : List CheckItemTemplate}
    {r : Option Err} {evs : List Event} (h : ItemsTrace env tx gid items r evs) :
    Halted r evs := by
  induction h with
  | done => exact Halted.none_nil
  | fail => exact Halted.fail_singleton rfl
  | step _ _ _ _ _ _ _ ih => exact Halted.cons_ok rfl ih

theorem GroupsTrace.groupsHalted {env : Env} {tx : Nat} {imap : Int → List CheckItemTemplate}
    {aid : Int} {groups : List CheckGroupTemplate} {r : Option Err} {evs : List Event}
    (h : GroupsTrace env tx imap aid groups r evs) : Halted r evs := by
  induction h with
  | done => exact Halted.none_nil
  | execFail => exact Halted.fail_singleton rfl
  | idFail => exact Halted.cons_ok rfl (Halted.fail_singleton rfl)
  | itemsFail _ _ _ _ _ hi => exact Halted.cons_ok rfl (Halted.cons_ok rfl hi.itemsHalted)
  | step _ _ _ _ _ _ hi _ ih =>
    exact Halted.cons_ok rfl (Halted.cons_ok rfl (Halted.append_ok hi.itemsHalted ih))

theorem AssetsTrace.assetsHalted {env : Env} {tx : Nat} {gmap : Int → List CheckGroupTemplate}
    {imap : Int → List CheckItemTemplate} {userId : String} {assets : List AssetDetail}
    {r : Option Err} {evs : List Event}
    (h : AssetsTrace env tx gmap imap userId assets r evs) : Halted r evs := by
  induction h with
  | done => exact Halted.none_nil
  | execFail => exact Halted.fail_singleton rfl
  | idFail => exact Halted.cons_ok rfl (Halted.fail_singleton rfl)
  | groupsFail _ _ _ _ _ _ hg => exact Halted.cons_ok rfl (Halted.cons_ok rfl hg.groupsHalted)
  | step _ _ _ _ _ _ _ hg _ ih =>
    exact Halted.cons_ok rfl (Halted.cons_ok rfl (Halted.append_ok hg.groupsHalted ih))

theorem BatchTrace.batchHalted {env : Env} {gmap : Int → List CheckGroupTemplate}
    {imap : Int → List CheckItemTemplate} {userId : String} {assets : List AssetDetail}
    {r : Option Err} {evs : List Event} {rows : List Row}
    (h : BatchTrace env gmap imap userId assets r evs rows) : Halted r evs := by
  cases h with
  | beginFail => exact Halted.fail_singleton rfl
  | ran tx _ body c hb => exact Halted.cons_ok rfl (Halted.snoc_commit tx _ hb.assetsHalted)

theorem RunTrace.runHalted {env : Env} {gmap : Int → List CheckGroupTemplate}
    {imap : Int → List CheckItemTemplate} {userId : String} {bs : List (List AssetDetail)}
    {r : Option Err} {evs : List Event} {rows : List Row}
    (h : RunTrace env gmap imap userId bs r evs rows) : Halted r evs := by
  induction h with
  | done => exact Halted.none_nil
  | halt _ _ _ _ _ hb => exact hb.batchHalted
  | step _ _ _ _ _ _ _ hb _ ih => exact Halted.append_ok hb.batchHalted ih

theorem Halted.first_failure {r : Option Err} {evs pre post : List Event} {ev : Event} {e : Err}
    (h : Halted r evs) (hs : evs = pre ++ ev :: post) (hev : ev.failure = some e)
    (hpre : ∀ x ∈ pre, x.failure = none) :
    r = some e ∧ ∀ x ∈ post, ∃ tx out, x = .commit tx out := by
  cases r with
  | none =>
    have := h ev (by rw [hs]; simp)
    rw [hev] at this
    cases this
  | some e2 =>
    obtain ⟨pre2, ev2, post2, h1, h2, h3, h4⟩ := h
    obtain ⟨_, k2, k3⟩ := first_split_unique (fun x : Event => x.failure ≠ none) pre pre2
      (hs.symm.trans h1) (fun y hy => by simp [hpre y hy]) (by simp [hev])
      (fun y hy => by simp [h2 y hy]) (by simp [h3])
    subst k2 k3
    rw [hev] at h3
    exact ⟨by rw [h3], h4⟩

/-! ## Referential consistency of the inserts -/

theorem WellParented.of_nil (ctx : List Event) : WellParented ctx [] := by
  intro pre x post h
  simp at h

theorem WellParented.of_cons {ctx : List Event} {x : Event} {evs : List Event}
    (hx : Parented ctx x) (h : WellParented (ctx ++ [x]) evs) : WellParented ctx (x :: evs) := by
  intro pre y post hs
  cases pre with
  | nil =>
    simp only [List.nil_append, List.cons.injEq] at hs
    rw [List.append_nil, ← hs.1]
    exact hx
  | cons a pre2 =>
    simp only [List.cons_append, List.cons.injEq] at hs
    have := h pre2 y post hs.2
    rw [List.append_assoc] at this
    rw [← hs.1]
    exact this

theorem WellParented.of_append {e1 : List Event} :
    ∀ {ctx e2 : List Event}, WellParented ctx e1 → WellParented (ctx ++ e1) e2 →
      WellParented ctx (e1 ++ e2) := by
  induction e1 with
  | nil => intro ctx e2 _ h2; simpa using h2
  | cons x xs ih =>
    intro ctx e2 h1 h2
    refine WellParented.of_cons (by simpa using h1 [] x xs rfl) (ih ?_ ?_)
    · intro pre y post hs
      have := h1 (x :: pre) y post (by rw [hs]; rfl)
      rwa [List.append_assoc]
    · rwa [List.append_assoc]

theorem ParentAssetCheck.extend {tx : Nat} {fk : Int} {before xs : List Event}
    (h : ParentAssetCheck tx fk before) (hxs : ∀ x ∈ xs, x.belowAssetCheck = true) :
    ParentAssetCheck tx fk (before ++ xs) := by
  obtain ⟨p1, p2, a, o, t, s, h1, h2⟩ := h
  refine ⟨p1, p2 ++ xs, a, o, t, s, by rw [h1]; simp, ?_⟩
  intro x hx
  rcases List.mem_append.mp hx with hx | hx
  · exact h2 x hx
  · exact hxs x hx

theorem ParentCheckGroup.extendGroup {tx : Nat} {fk : Int} {before xs : List Event}
    (h : ParentCheckGroup tx fk before) (hxs : ∀ x ∈ xs, x.belowCheckGroup = true) :
    ParentCheckGroup tx fk (before ++ xs) := by
  obtain ⟨p1, p2, n, a, s, h1, h2⟩ := h
  refine ⟨p1, p2 ++ xs, n, a, s, by rw [h1]; simp, ?_⟩
  intro x hx
  rcases List.mem_append.mp hx with hx | hx
  · exact h2 x hx
  · exact hxs x hx

theorem ItemsTrace.belowCheckGroup {env : Env} {tx : Nat} {gid : Int}
    {items : List CheckItemTemplate} {r : Option Err} {evs : List Event}
    (h : ItemsTrace env tx gid items r evs) :
    ∀ x ∈ evs, x.belowCheckGroup = true ∧ x.belowAssetCheck = true ∧ x.inTx tx = true := by
  induction h with
  | done => simp
  | fail => simp [Event.belowCheckGroup, Event.belowAssetCheck, Event.inTx]
  | step _ _ _ _ _ _ _ ih =>
    intro x hx
    rcases List.mem_cons.mp hx with rfl | hx
    · simp [Event.belowCheckGroup, Event.belowAssetCheck, Event.inTx]
    · exact ih x hx

theorem GroupsTrace.belowAssetCheck {env : Env} {tx : Nat} {imap : Int → List CheckItemTemplate}
    {aid : Int} {groups : List CheckGroupTemplate} {r : Option Err} {evs : List Event}
    (h : GroupsTrace env tx imap aid groups r evs) :
    ∀ x ∈ evs, x.belowAssetCheck = true ∧ x.inTx tx = true := by
  induction h with
  | done => simp
  | execFail => simp [Event.belowAssetCheck, Event.inTx]
  | idFail => simp [Event.belowAssetCheck, Event.inTx]
  | itemsFail _ _ _ _ _ hi =>
    intro x hx
    simp only [List.mem_cons] at hx
    rcases hx with rfl | rfl | hx
    · simp [Event.belowAssetCheck, Event.inTx]
    · simp [Event.belowAssetCheck, Event.inTx]
    · exact (hi.belowCheckGroup x hx).2
  | step _ _ _ _ _ _ hi _ ih =>
    intro x hx
    simp only [List.mem_cons, List.mem_append] at hx
    rcases hx with rfl | rfl | hx | hx
    · simp [Event.belowAssetCheck, Event.inTx]
    · simp [Event.belowAssetCheck, Event.inTx]
    · exact (hi.belowCheckGroup x hx).2
    · exact ih x hx

theorem AssetsTrace.inTx {env : Env} {tx : Nat} {gmap : Int → List CheckGroupTemplate}
    {imap : Int → List CheckItemTemplate} {userId : String} {assets : List AssetDetail}
    {r : Option Err} {evs : List Event}
    (h : AssetsTrace env tx gmap imap userId assets r evs) : ∀ x ∈ evs, x.inTx tx = true := by
  induction h with
  | done => simp
  | execFail => simp [Event.inTx]
  | idFail => simp [Event.inTx]
  | groupsFail _ _ _ _ _ _ hg =>
    intro x hx
    simp only [List.mem_cons] at hx
    rcases hx with rfl | rfl | hx
    · simp [Event.inTx]
    · simp [Event.inTx]
    · exact (hg.belowAssetCheck x hx).2
  | step _ _ _ _ _ _ _ hg _ ih =>
    intro x hx
    simp only [List.mem_cons, List.mem_append] at hx
    rcases hx with rfl | rfl | hx | hx
    · simp [Event.inTx]
    · simp [Event.inTx]
    · exact (hg.belowAssetCheck x hx).2
    · exact ih x hx

theorem ItemsTrace.itemsWellParented {env : Env} {tx : Nat} {gid : Int}
    {items : List CheckItemTemplate} {r : Option Err} {evs : List Event}
    (h : ItemsTrace env tx gid items r evs) :
    ∀ ctx, ParentCheckGroup tx gid ctx → WellParented ctx evs := by
  induction h with
  | done => intro ctx _; exact WellParented.of_nil ctx
  | fail => intro ctx hp; exact WellParented.of_cons hp (WellParented.of_nil _)
  | step _ _ _ _ _ _ _ ih =>
    intro ctx hp
    exact WellParented.of_cons hp (ih _ (hp.extendGroup (by simp [Event.belowCheckGroup])))

theorem GroupsTrace.groupsWellParented {env : Env} {tx : Nat} {imap : Int → List CheckItemTemplate}
    {aid : Int} {groups : List CheckGroupTemplate} {r : Option Err} {evs : List Event}
    (h : GroupsTrace env tx imap aid groups r evs) :
    ∀ ctx, ParentAssetCheck tx aid ctx → WellParented ctx evs := by
  induction h with
  | done => intro ctx _; exact WellParented.of_nil ctx
  | execFail => intro ctx hp; exact WellParented.of_cons hp (WellParented.of_nil _)
  | idFail =>
    intro ctx hp
    exact WellParented.of_cons hp (WellParented.of_cons trivial (WellParented.of_nil _))
  | itemsFail t _ gid _ items hi =>
    intro ctx hp
    refine WellParented.of_cons hp (WellParented.of_cons trivial (hi.itemsWellParented _ ?_))
    exact ⟨ctx, [], t.name, aid, "pass", by simp, by simp⟩
  | step t _ gid items _ evs hi _ ih =>
    intro ctx hp
    refine WellParented.of_cons hp (WellParented.of_cons trivial
      (WellParented.of_append (hi.itemsWellParented _ ?_) (ih _ ?_)))
    · exact ⟨ctx, [], t.name, aid, "pass", by simp, by simp⟩
    · have h1 : ParentAssetCheck tx aid
          (ctx ++ (.exec tx (.checkGroup t.name aid "pass") (.ok gid) ::
            .lastInsertId (.ok gid) :: items)) := by
        apply hp.extend
        intro x hx
        simp only [List.mem_cons] at hx
        rcases hx with rfl | rfl | hx
        · rfl
        · rfl
        · exact (hi.belowCheckGroup x hx).2.1
      simpa [List.append_assoc] using h1

theorem AssetsTrace.assetsWellParented {env : Env} {tx : Nat} {gmap : Int → List CheckGroupTemplate}
    {imap : Int → List CheckItemTemplate} {userId : String} {assets : List AssetDetail}
    {r : Option Err} {evs : List Event}
    (h : AssetsTrace env tx gmap imap userId assets r evs) :
    ∀ ctx, WellParented ctx evs := by
  induction h with
  | done => intro ctx; exact WellParented.of_nil ctx
  | execFail => intro ctx; exact WellParented.of_cons trivial (WellParented.of_nil _)
  | idFail =>
    intro ctx
    exact WellParented.of_cons trivial (WellParented.of_cons trivial (WellParented.of_nil _))
  | groupsFail a _ ts aid _ groups hg =>
    intro ctx
    refine WellParented.of_cons trivial (WellParented.of_cons trivial (hg.groupsWellParented _ ?_))
    exact ⟨ctx, [], a.id, userId, ts, "pass", by simp, by simp⟩
  | step a _ ts aid groups _ evs hg _ ih =>
    intro ctx
    refine WellParented.of_cons trivial (WellParented.of_cons trivial
      (WellParented.of_append (hg.groupsWellParented _ ?_) (ih _)))
    exact ⟨ctx, [], a.id, userId, ts, "pass", by simp, by simp⟩

theorem BatchTrace.batchWellParented {env : Env} {gmap : Int → List CheckGroupTemplate}
    {imap : Int → List CheckItemTemplate} {userId : String} {assets : List AssetDetail}
    {r : Option Err} {evs : List Event} {rows : List Row}
    (h : BatchTrace env gmap imap userId assets r evs rows) : WellParented [] evs := by
  cases h with
  | beginFail => exact WellParented.of_cons trivial (WellParented.of_nil _)
  | ran tx _ body c hb =>
    exact WellParented.of_cons trivial
      (WellParented.of_append (hb.assetsWellParented _) (WellParented.of_cons trivial (WellParented.of_nil _)))

/-- The inserts of a batch are made in the transaction begun by that batch. -/
theorem BatchTrace.sameTx {env : Env} {gmap : Int → List CheckGroupTemplate}
    {imap : Int → List CheckItemTemplate} {userId : String} {assets : List AssetDetail}
    {r : Option Err} {evs : List Event} {rows : List Row}
    (h : BatchTrace env gmap imap userId assets r evs rows) :
    ∃ out rest, evs = .begin out :: rest ∧ (∀ x ∈ rest, x.isBegin = false) ∧
      ∀ tx stmt o, .exec tx stmt o ∈ evs → out = .ok tx := by
  cases h with
  | beginFail c e => exact ⟨_, [], rfl, by simp, by simp⟩
  | ran tx _ body c hb =>
    refine ⟨.ok tx, _, rfl, ?_, ?_⟩
    · intro x hx
      rcases List.mem_append.mp hx with hx | hx
      · have := hb.inTx x hx
        cases x <;> simp_all [Event.inTx, Event.isBegin]
      · rw [List.mem_singleton] at hx
        subst hx
        rfl
    · intro tx2 stmt o hx
      simp only [List.mem_cons, List.mem_append, List.mem_singleton, reduceCtorEq, false_or,
        or_false, List.not_mem_nil] at hx
      have := hb.inTx _ hx
      simp only [Event.inTx, beq_iff_eq] at this
      rw [this]

/-! ## Runs without storage failures -/

theorem ItemsTrace.itemsNoFault {env : Env} (hnf : NoFault env) {tx : Nat} {gid : Int}
    {items : List CheckItemTemplate} {r : Option Err} {evs : List Event}
    (h : ItemsTrace env tx gid items r evs) :
    r = none ∧ ∃ recs : List ItemRec, rowsOf evs = recs.map (ItemRec.row gid) ∧
      recs.map (·.name) = items.map (·.name) := by
  induction h with
  | done => exact ⟨rfl, [], rfl, rfl⟩
  | fail _ _ _ c e hf => rw [hnf c] at hf; cases hf
  | step t _ ts id _ _ _ ih =>
    obtain ⟨hr, recs, h1, h2⟩ := ih
    exact ⟨hr, ⟨id, t.name, ts⟩ :: recs, by simp [rowsOf, h1, ItemRec.row], by simp [h2]⟩

theorem GroupsTrace.groupsNoFault {env : Env} (hnf : NoFault env) {tx : Nat}
    {imap : Int → List CheckItemTemplate} {aid : Int} {groups : List CheckGroupTemplate}
    {r : Option Err} {evs : List Event} (h : GroupsTrace env tx imap aid groups r evs) :
    r = none ∧ ∃ recs : List GroupRec, rowsOf evs = (recs.map (GroupRec.rows aid)).flatten ∧
      recs.map GroupRec.shape = groups.map fun g => (g.name, (imap g.id).map (·.name)) := by
  induction h with
  | done => exact ⟨rfl, [], rfl, rfl⟩
  | execFail _ _ c e hf => rw [hnf c] at hf; cases hf
  | idFail _ _ _ c e hf => rw [hnf c] at hf; cases hf
  | itemsFail _ _ _ _ _ hi => cases (hi.itemsNoFault hnf).1
  | step t _ gid items _ _ hi _ ih =>
    obtain ⟨hr, recs, h1, h2⟩ := ih
    obtain ⟨_, irecs, k1, k2⟩ := hi.itemsNoFault hnf
    refine ⟨hr, ⟨gid, t.name, irecs⟩ :: recs, ?_, ?_⟩
    · simp [rowsOf, rowsOf_append, h1, k1, GroupRec.rows]
    · simp [h2, k2, GroupRec.shape]

theorem AssetsTrace.assetsNoFault {env : Env} (hnf : NoFault env) {tx : Nat}
    {gmap : Int → List CheckGroupTemplate} {imap : Int → List CheckItemTemplate}
    {userId : String} {assets : List AssetDetail} {r : Option Err} {evs : List Event}
    (h : AssetsTrace env tx gmap imap userId assets r evs) :
    r = none ∧ ∃ recs : List AssetRec, rowsOf evs = (recs.map AssetRec.rows).flatten ∧
      recs.map AssetRec.shape = templateTree assets gmap imap userId := by
  induction h with
  | done => exact ⟨rfl, [], rfl, rfl⟩
  | execFail _ _ _ c e hf => rw [hnf c] at hf; cases hf
  | idFail _ _ _ _ c e hf => rw [hnf c] at hf; cases hf
  | groupsFail _ _ _ _ _ _ hg => cases (hg.groupsNoFault hnf).1
  | step a _ ts aid groups _ _ hg _ ih =>
    obtain ⟨hr, recs, h1, h2⟩ := ih
    obtain ⟨_, grecs, k1, k2⟩ := hg.groupsNoFault hnf
    refine ⟨hr, ⟨aid, a.id, userId, ts, grecs⟩ :: recs, ?_, ?_⟩
    · simp [rowsOf, rowsOf_append, h1, k1, AssetRec.rows]
    · simp only [templateTree] at h2
      simp [h2, k2, AssetRec.shape, templateTree]

theorem assetIdsOf_append (xs ys : List Event) :
    assetIdsOf (xs ++ ys) = assetIdsOf xs ++ assetIdsOf ys := by
  induction xs with
  | nil => rfl
  | cons x xs ih =>
    cases x with
    | exec tx stmt out => cases stmt <;> simp [assetIdsOf, ih]
    | _ => simp [assetIdsOf, ih]

theorem assetIdsOf_below {xs : List Event} (h : ∀ x ∈ xs, x.belowAssetCheck = true) :
    assetIdsOf xs = [] := by
  induction xs with
  | nil => rfl
  | cons x xs ih =>
    have hx := h x (List.mem_cons_self _ _)
    have := ih fun y hy => h y (List.mem_cons_of_mem _ hy)
    cases x with
    | exec tx stmt out => cases stmt <;> simp_all [assetIdsOf, Event.belowAssetCheck]
    | _ => simp_all [assetIdsOf]

theorem AssetsTrace.assetIds {env : Env} {tx : Nat}
    {gmap : Int → List CheckGroupTemplate} {imap : Int → List CheckItemTemplate}
    {userId : String} {assets : List AssetDetail} {r : Option Err} {evs : List Event}
    (h : AssetsTrace env tx gmap imap userId assets r evs) (hr : r = none) :
    assetIdsOf evs = assets.map (·.id) := by
  induction h with
  | done => rfl
  | execFail => cases hr
  | idFail => cases hr
  | groupsFail => cases hr
  | step a _ ts aid groups _ _ hg _ ih =>
    have hg0 := assetIdsOf_below fun x hx => (hg.belowAssetCheck x hx).1
    simp [assetIdsOf, assetIdsOf_append, hg0, ih hr]

theorem BatchTrace.batchNoFault {env : Env} (hnf : NoFault env)
    {gmap : Int → List CheckGroupTemplate} {imap : Int → List CheckItemTemplate}
    {userId : String} {assets : List AssetDetail} {r : Option Err} {evs : List Event}
    {rows : List Row} (h : BatchTrace env gmap imap userId assets r evs rows) :
    r = none ∧
      (∃ recs : List AssetRec, rows = (recs.map AssetRec.rows).flatten ∧
        recs.map AssetRec.shape = templateTree assets gmap imap userId) ∧
      ∃ seg : Nat × List Event, evs = committedTx seg ∧ (∀ x ∈ seg.2, x.inTx seg.1 = true) ∧
        assetIdsOf seg.2 = assets.map (·.id) := by
  cases h with
  | beginFail c e hf => rw [hnf c] at hf; cases hf
  | ran tx _ body c hb =>
    obtain ⟨hr, recs, h1, h2⟩ := hb.assetsNoFault hnf
    refine ⟨hr, ⟨recs, by simp [hnf c, h1], h2⟩, (tx, body), ?_, hb.inTx, hb.assetIds hr⟩
    simp [committedTx, hnf c]

theorem RunTrace.runNoFault {env : Env} (hnf : NoFault env)
    {gmap : Int → List CheckGroupTemplate} {imap : Int → List CheckItemTemplate}
    {userId : String} {bs : List (List AssetDetail)} {r : Option Err} {evs : List Event}
    {rows : List Row} (h : RunTrace env gmap imap userId bs r evs rows) :
    r = none ∧
      (∃ recs : List AssetRec, rows = (recs.map AssetRec.rows).flatten ∧
        recs.map AssetRec.shape = templateTree bs.flatten gmap imap userId) ∧
      ∃ segs : List (Nat × List Event), evs = (segs.map committedTx).flatten ∧
        segs.length = bs.length ∧
        ∀ p ∈ segs.zip bs, (∀ x ∈ p.1.2, x.inTx p.1.1 = true) ∧
          assetIdsOf p.1.2 = p.2.map (·.id) := by
  induction h with
  | done => exact ⟨rfl, ⟨[], rfl, rfl⟩, [], rfl, rfl, by simp⟩
  | halt _ _ _ _ _ hb => cases (hb.batchNoFault hnf).1
  | step b rest evs rows _ evs2 rows2 hb _ ih =>
    obtain ⟨hr, ⟨recs2, h1, h2⟩, segs, h3, h4, h5⟩ := ih
    obtain ⟨_, ⟨recs, k1, k2⟩, seg, k3, k4, k5⟩ := hb.batchNoFault hnf
    refine ⟨hr, ⟨recs ++ recs2, ?_, ?_⟩, seg :: segs, ?_, ?_, ?_⟩
    · simp [h1, k1]
    · simp only [templateTree] at h2 k2
      simp [h2, k2, templateTree]
    · simp [h3, k3]
    · simp [h4]
    · intro p hp
      simp only [List.zip_cons_cons, List.mem_cons] at hp
      rcases hp with rfl | hp
      · exact ⟨k4, k5⟩
      · exact h5 p hp

/-! ## The batch partition -/

theorem batches_length (assets : List AssetDetail) :
    (batches assets).length = (assets.length + 9) / 10 := by
  simp [batches, batchSize]

theorem batchAt_length (assets : List AssetDetail) (k : Nat) :
    (batchAt assets k).length = min (10 * k + 10) assets.length - 10 * k := by
  simp only [batchAt, batchSize, List.length_drop, List.length_take]
  omega

theorem flatten_batchAt_range (assets : List AssetDetail) (m : Nat) :
    ((List.range m).map (batchAt assets)).flatten = assets.take (batchSize * m) := by
  induction m with
  | zero => simp
  | succ m ih =>
    rw [List.range_succ, List.map_append, List.flatten_append, ih]
    simp only [List.map_cons, List.map_nil, List.flatten_cons, List.flatten_nil,
      List.append_nil, batchAt]
    have h1 : assets.take (min (batchSize * m + batchSize) assets.length)
        = assets.take (batchSize * (m + 1)) := by
      rw [Nat.mul_add, Nat.mul_one]
      rcases Nat.le_total (batchSize * m + batchSize) assets.length with h | h
      · rw [Nat.min_eq_left h]
      · rw [Nat.min_eq_right h, List.take_of_length_le (le_refl _), List.take_of_length_le h]
    have h2 : assets.take (batchSize * m)
        = (assets.take (batchSize * (m + 1))).take (batchSize * m) := by
      rw [List.take_take, Nat.min_eq_left (Nat.mul_le_mul_left _ (Nat.le_succ m))]
    rw [h1]
    conv_lhs => rw [h2]
    exact List.take_append_drop _ _

theorem batches_flatten (assets : List AssetDetail) : (batches assets).flatten = assets := by
  rw [batches, flatten_batchAt_range]
  apply List.take_of_length_le
  simp only [batchSize]
  omega

theorem batches_getElem? (assets : List AssetDetail) (k : Nat) (b : List AssetDetail)
    (h : (batches assets)[k]? = some b) :
    k < (batches assets).length ∧ b = batchAt assets k := by
  have hk : k < (batches assets).length := by
    by_contra hk
    rw [List.getElem?_eq_none (by omega)] at h
    cases h
  refine ⟨hk, ?_⟩
  have hk2 : k < (assets.length + (batchSize - 1)) / batchSize := by
    simpa [batches] using hk
  simp only [batches, List.getElem?_map, List.getElem?_range hk2, Option.map_some'] at h
  exact (Option.some.inj h).symm

theorem mem_batches {assets b : List AssetDetail} (h : b ∈ batches assets) :
    b ≠ [] ∧ b.length ≤ 10 := by
  simp only [batches, List.mem_map, List.mem_range] at h
  obtain ⟨k, hk, rfl⟩ := h
  have hlen := batchAt_length assets k
  simp only [batchSize] at hk
  constructor
  · intro h0
    rw [h0] at hlen
    simp only [List.length_nil] at hlen
    omega
  · omega

/-! ## Counting the rows of a record tree -/

theorem countP_groupRows (aid : Int) (g : GroupRec) :
    (GroupRec.rows aid g).countP Row.isAssetCheck = 0 ∧
      (GroupRec.rows aid g).countP Row.isCheckGroup = 1 ∧
      (GroupRec.rows aid g).countP Row.isCheckItem = g.items.length := by
  simp only [GroupRec.rows, List.countP_cons, List.countP_map]
  refine ⟨?_, ?_, ?_⟩
  · simp [Row.isAssetCheck, ItemRec.row, Function.comp, List.countP_eq_zero]
  · simp [Row.isCheckGroup, ItemRec.row, Function.comp, List.countP_eq_zero]
  · simp [Row.isCheckItem, ItemRec.row, Function.comp, List.countP_eq_length]

theorem countP_groupsRows (aid : Int) (gs : List GroupRec) :
    ((gs.map (GroupRec.rows aid)).flatten).countP Row.isAssetCheck = 0 ∧
      ((gs.map (GroupRec.rows aid)).flatten).countP Row.isCheckGroup = gs.length ∧
      ((gs.map (GroupRec.rows aid)).flatten).countP Row.isCheckItem
        = (gs.map (·.items.length)).sum := by
  induction gs with
  | nil => simp
  | cons g gs ih =>
    obtain ⟨h1, h2, h3⟩ := countP_groupRows aid g
    obtain ⟨i1, i2, i3⟩ := ih
    refine ⟨?_, ?_, ?_⟩
    all_goals
      simp only [List.map_cons, List.flatten_cons, List.countP_append, List.length_cons,
        List.sum_cons, h1, h2, h3, i1, i2, i3]
    omega

theorem countP_assetRows (recs : List AssetRec) :
    ((recs.map AssetRec.rows).flatten).countP Row.isAssetCheck = recs.length ∧
      ((recs.map AssetRec.rows).flatten).countP Row.isCheckGroup
        = (recs.map (·.groups.length)).sum ∧
      ((recs.map AssetRec.rows).flatten).countP Row.isCheckItem
        = (recs.map fun r => (r.groups.map (·.items.length)).sum).sum := by
  induction recs with
  | nil => simp
  | cons r recs ih =>
    obtain ⟨h1, h2, h3⟩ := countP_groupsRows r.id r.groups
    obtain ⟨i1, i2, i3⟩ := ih
    refine ⟨?_, ?_, ?_⟩
    all_goals
      simp only [List.map_cons, List.flatten_cons, List.countP_append, List.length_cons,
        List.sum_cons, AssetRec.rows, List.countP_cons, h1, h2, h3, i1, i2, i3,
        Row.isAssetCheck, Row.isCheckGroup, Row.isCheckItem]
      simp
    all_goals omega

theorem map_eq_map_zip {α β γ : Type} {f : α → γ} {g : β → γ} :
    ∀ (xs : List α) (ys : List β), ys.map g = xs.map f → ∀ p ∈ xs.zip ys, g p.2 = f p.1 := by
  intro xs
  induction xs with
  | nil => intro ys _ p hp; simp at hp
  | cons x xs ih =>
    intro ys h p hp
    cases ys with
    | nil => simp at hp
    | cons y ys =>
      simp only [List.map_cons, List.cons.injEq] at h
      simp only [List.zip_cons_cons, List.mem_cons] at hp
      rcases hp with rfl | hp
      · exact h.1
      · exact ih ys h.2 p hp

/-! ## Asset flattening: lemmas -/

theorem foldl_zero_key (rows : List AssetRow) :
    ∀ xs : List AssetDetail,
      rows.foldl (fun (assetsMap : AssetsMap) row =>
        assetsMap.set 0 (assetsMap.get 0 ++ [scanAsset row])) [(0, xs)]
        = [(0, xs ++ rows.map scanAsset)] := by
  induction rows with
  | nil => intro xs; simp
  | cons r rs ih =>
    intro xs
    have step : AssetsMap.set [(0, xs)] 0 (AssetsMap.get [(0, xs)] 0 ++ [scanAsset r])
        = [(0, xs ++ [scanAsset r])] := by
      simp [AssetsMap.get, AssetsMap.set, List.lookup]
    rw [List.foldl_cons, step, ih]
    simp

theorem level_nil_of_le {table : List Location} {F : List Int} {n : Nat}
    (h : level table F n = []) : ∀ m, n ≤ m → level table F m = [] := by
  intro m hm
  induction m with
  | zero =>
    obtain rfl : n = 0 := by omega
    exact h
  | succ m ih =>
    rcases Nat.eq_or_lt_of_le hm with rfl | hlt
    · exact h
    · exact level_succ_of_nil (ih (by omega))

theorem acyclic_of_heightDecreases (table : List Location) (height : Int → Nat)
    (h : heightDecreases table height = true) : Acyclic table := by
  apply acyclic_of_height table height
  intro l hl p hp
  simp only [heightDecreases, List.all_eq_true] at h
  have := h l hl
  rw [hp] at this
  simpa using this

theorem parent_unique {table : List Location} (hid : (table.map (·.id)).Nodup) {p q x : Int}
    (hp : IsChild table p x) (hq : IsChild table q x) : p = q := by
  have h := List.inj_on_of_nodup_map hid hp hq rfl
  simpa using h

theorem level_succ_nodup {table : List Location} (hid : (table.map (·.id)).Nodup)
    (F : List Int) (n : Nat) : (level table F (n + 1)).Nodup := by
  simp only [level, selectChildIds]
  exact hid.sublist ((List.filter_sublist _).map _)

theorem mem_two_levels {table : List Location} (hid : (table.map (·.id)).Nodup)
    (F : List Int) :
    ∀ (i j : Nat) (x : Int), i < j → x ∈ level table F (i + 1) → x ∈ level table F (j + 1) →
      ∃ f ∈ F, ∃ g ∈ F, Descendant table g f := by
  intro i
  induction i with
  | zero =>
    intro j x hij hi hj
    obtain ⟨p, hp, hpc⟩ := mem_selectChildIds.mp hi
    obtain ⟨q, hq, hqc⟩ := mem_selectChildIds.mp hj
    obtain rfl := parent_unique hid hpc hqc
    obtain ⟨j2, rfl⟩ : ∃ j2, j = j2 + 1 := ⟨j - 1, by omega⟩
    obtain ⟨g, hg, hd⟩ := mem_level_descendant table F j2 p hq
    exact ⟨p, hp, g, hg, hd⟩
  | succ i ih =>
    intro j x hij hi hj
    obtain ⟨p, hp, hpc⟩ := mem_selectChildIds.mp hi
    obtain ⟨q, hq, hqc⟩ := mem_selectChildIds.mp hj
    obtain rfl := parent_unique hid hpc hqc
    obtain ⟨j2, rfl⟩ : ∃ j2, j = j2 + 1 := ⟨j - 1, by omega⟩
    exact ih j2 p (by omega) hp hq

theorem count_expansion_eq_two {table : List Location} (hid : (table.map (·.id)).Nodup)
    {F : List Int} (hF : ∀ f ∈ F, ∀ g ∈ F, ¬ Descendant table g f) {k : Nat} (hk : k ≠ 0)
    {x : Int} (hx : x ∈ level table F k) : (expansion table F k).count x = 2 := by
  obtain ⟨j, rfl⟩ : ∃ j, k = j + 1 := ⟨k - 1, by omega⟩
  have h1 : (level table F (j + 1)).count x = 1 :=
    List.count_eq_one_of_mem (level_succ_nodup hid F j) hx
  have h0 : (levelsUpTo table F j).count x = 0 := by
    rw [List.count_eq_zero]
    intro hmem
    obtain ⟨i, hi, hxi⟩ := mem_levelsUpTo.mp hmem
    obtain ⟨f, hf, g, hg, hd⟩ := mem_two_levels hid F i j x hi hxi hx
    exact hF f hf g hg hd
  unfold expansion
  rw [if_neg hk]
  have hsplit : levelsUpTo table F (j + 1) = levelsUpTo table F j ++ level table F (j + 1) := by
    simp [levelsUpTo, List.range_succ]
  rw [hsplit, List.count_append, List.count_append, h0, h1]

/-! ## Location expansion: results -/

/-- C2 (evaluation on the specification scenario). With `L1 -> {L2, L3}` and
`L3 -> {L4}`, expanding `[L1]` returns `[L2, L3, L4, L4]`: the root `L1` is
missing from the result and the leaf `L4` occurs twice. -/
theorem FetchChildLocations_scenario :
    FetchChildLocations (locationsDb scenarioTable) 3 [1] = some (.ok [2, 3, 4, 4]) ∧
      (1 : Int) ∉ [2, 3, 4, 4] ∧ List.count (4 : Int) [2, 3, 4, 4] = 2 := by
  refine ⟨rfl, by decide, by decide⟩

/-- C8. For a location without child locations, whenever the child query
succeeds (with no rows), `FetchChildLocations` called with the one-element
list of that location returns exactly that one-element list; this holds for
every backend and in particular for every stored table in which no row has
the location as parent. -/
theorem FetchChildLocations_leaf (loc : Int) (fuel : Nat) :
    (∀ query : List Int → Except Err (List Int), query [loc] = .ok [] →
      FetchChildLocations query (fuel + 1) [loc] = some (.ok [loc])) ∧
    (∀ table : List Location, (∀ l ∈ table, l.parentId ≠ some loc) →
      FetchChildLocations (locationsDb table) (fuel + 1) [loc] = some (.ok [loc])) := by
  have h1 : ∀ query : List Int → Except Err (List Int), query [loc] = .ok [] →
      FetchChildLocations query (fuel + 1) [loc] = some (.ok [loc]) := by
    intro query h
    simp [FetchChildLocations, h]
  refine ⟨h1, ?_⟩
  intro table h
  apply h1
  have : selectChildIds table [loc] = [] := by
    rw [List.eq_nil_iff_forall_not_mem]
    intro x hx
    obtain ⟨p, hp, hc⟩ := mem_selectChildIds.mp hx
    rw [List.mem_singleton] at hp
    subst hp
    exact h _ hc rfl
  simp [locationsDb, this]

/-- Witness of C8: location `L2` of the scenario has no children and expands
to `[L2]`. -/
theorem FetchChildLocations_leaf_witness :
    (∀ l ∈ scenarioTable, l.parentId ≠ some 2) ∧
      FetchChildLocations (locationsDb scenarioTable) 1 [2] = some (.ok [2]) :=
  ⟨by decide, (FetchChildLocations_leaf 2 0).2 scenarioTable (by decide)⟩

/-- C10 (counterexample). On the acyclic chain `1 -> 2 -> 3` the non-empty
input `[1, 2]` has children, yet the result `[2, 3, 3, 3]` contains the input
identifier `2`, and the identifier `3` of the deepest level occurs three times. -/
theorem FetchChildLocations_nested_input :
    Acyclic chainTable ∧
      level chainTable [1, 2] 1 = [2, 3] ∧ level chainTable [1, 2] 2 = [3] ∧
      level chainTable [1, 2] 3 = [] ∧
      FetchChildLocations (locationsDb chainTable) 3 [1, 2] = some (.ok [2, 3, 3, 3]) ∧
      (2 : Int) ∈ [1, 2] ∧ (2 : Int) ∈ [2, 3, 3, 3] ∧ List.count (3 : Int) [2, 3, 3, 3] = 3 :=
  ⟨acyclic_of_heightDecreases chainTable (fun i => (10 - i).toNat) (by decide),
    rfl, rfl, rfl, rfl, by decide, by decide, by decide⟩

/-- C10 (amended). For every acyclic location table and every non-empty input
`F` there is a last non-empty level `Lk`; `FetchChildLocations F` finishes
with any fuel above `k` and returns `F` when `k = 0` (that is, when `L1` is
empty) and `L1 ++ ... ++ Lk ++ Lk` otherwise. In the latter case every input
identifier that is not a proper descendant of an input identifier is absent
from the result, and every identifier of the deepest level occurs at least
twice; it occurs exactly twice when the location identifiers of the table are
distinct and no input identifier is a proper descendant of an input
identifier. -/
theorem FetchChildLocations_exact (table : List Location) (F : List Int)
    (hac : Acyclic table) (hF : F ≠ []) :
    ∃ k, level table F k ≠ [] ∧ level table F (k + 1) = [] ∧
      (k = 0 ↔ level table F 1 = []) ∧
      (∀ fuel, k < fuel →
        FetchChildLocations (locationsDb table) fuel F = some (.ok (expansion table F k))) ∧
      (k ≠ 0 → ∀ x ∈ F, (∀ f ∈ F, ¬ Descendant table f x) → x ∉ expansion table F k) ∧
      (k ≠ 0 → ∀ x ∈ level table F k, 2 ≤ (expansion table F k).count x) ∧
      (k ≠ 0 → (table.map (·.id)).Nodup → (∀ f ∈ F, ∀ g ∈ F, ¬ Descendant table g f) →
        ∀ x ∈ level table F k, (expansion table F k).count x = 2) := by
  obtain ⟨k, hk, hk1⟩ := exists_last_level hac hF
  refine ⟨k, hk, hk1, ?_, FetchChildLocations_levels table k F hk hk1, ?_, ?_, ?_⟩
  · constructor
    · rintro rfl
      exact hk1
    · intro h1
      by_contra h0
      exact hk (level_nil_of_le h1 k (by omega))
  · intro h0 x _ hx hmem
    obtain ⟨f, hf, hd⟩ := mem_expansion_descendant h0 hmem
    exact hx f hf hd
  · intro h0 x hx
    exact two_le_count_expansion h0 hx
  · intro h0 hid hanti x hx
    exact count_expansion_eq_two hid hanti h0 hx

/-- Witness of C10 (amended): the scenario tree is acyclic and `[L1]` is
non-empty, so the expansion of `[L1]` has a last non-empty level. -/
theorem FetchChildLocations_exact_witness :
    Acyclic scenarioTable ∧ ([1] : List Int) ≠ [] ∧
      ∃ k, level scenarioTable [1] k ≠ [] ∧ level scenarioTable [1] (k + 1) = [] ∧
        ∀ fuel, k < fuel → FetchChildLocations (locationsDb scenarioTable) fuel [1]
          = some (.ok (expansion scenarioTable [1] k)) :=
  ⟨acyclic_of_heightDecreases scenarioTable (fun i => (10 - i).toNat) (by decide),
    by decide,
    (FetchChildLocations_exact scenarioTable [1]
      (acyclic_of_heightDecreases scenarioTable (fun i => (10 - i).toNat) (by decide))
      (by decide)).imp fun _ h => ⟨h.1, h.2.1, h.2.2.2.1⟩⟩

/-! ## Asset flattening: results -/

/-- C9. For every sequence of rows returned by the asset query,
`FetchAssetsForLocations` returns the map whose only key is the zero value,
holding all assets in query order (and the empty map when there are no rows);
whatever order the map is ranged over, the list flattened by `Handler` is the
full row sequence, each asset once. -/
theorem FetchAssetsForLocations_zero_key
    (query : List Int → Except Err (List AssetRow)) (locationIds : List Int)
    (rows : List AssetRow) (h : query locationIds = .ok rows) :
    FetchAssetsForLocations query locationIds
        = .ok (if rows.isEmpty then [] else [(0, rows.map scanAsset)]) ∧
      ∀ m, FetchAssetsForLocations query locationIds = .ok m →
        ∀ order : List (Int × List AssetDetail), order.Perm m →
          flattenAssets order = rows.map scanAsset := by
  have hres : FetchAssetsForLocations query locationIds
      = .ok (if rows.isEmpty then [] else [(0, rows.map scanAsset)]) := by
    simp only [FetchAssetsForLocations, h]
    cases rows with
    | nil => rfl
    | cons r rs =>
      have step : AssetsMap.set [] 0 (AssetsMap.get [] 0 ++ [scanAsset r])
          = [(0, [scanAsset r])] := by
        simp [AssetsMap.get, AssetsMap.set, List.lookup]
      rw [List.foldl_cons, step, foldl_zero_key]
      simp
  refine ⟨hres, ?_⟩
  intro m hm order hperm
  rw [hres] at hm
  cases hm
  cases rows with
  | nil =>
    simp only [List.isEmpty_nil, if_true] at hperm
    rw [List.perm_nil.mp hperm]
    rfl
  | cons r rs =>
    simp only [List.isEmpty_cons, Bool.false_eq_true, if_false] at hperm
    rw [List.perm_singleton.mp hperm]
    simp [flattenAssets]

/-- Witness of C9: two rows queried for two locations end under key `0`. -/
theorem FetchAssetsForLocations_zero_key_witness :
    FetchAssetsForLocations (fun _ => .ok [(1, 7, 5), (2, 8, 6)]) [10, 20]
      = .ok [(0, [⟨1, 7, 5⟩, ⟨2, 8, 6⟩])] :=
  (FetchAssetsForLocations_zero_key (fun _ => .ok [(1, 7, 5), (2, 8, 6)]) [10, 20]
    [(1, 7, 5), (2, 8, 6)] rfl).1

/-! ## Provisioning engine: results -/

/-- C1 (evaluation at a failing insert). In a batch of two assets whose
second AssetCheck insert fails, `ProcessBatch` returns that error, but its
deferred closure commits instead of rolling back: the AssetCheck row inserted
earlier in the same batch is durable afterwards. -/
theorem ProcessBatch_commits_after_failed_insert :
    (ProcessBatch (faultAt 3 "insert failed") [asset1, asset2] (fun _ => []) (fun _ => [])
        "u" emptyDB).1 = some "insert failed" ∧
      (ProcessBatch (faultAt 3 "insert failed") [asset1, asset2] (fun _ => []) (fun _ => [])
        "u" emptyDB).2.committed = [⟨101, .assetCheck 1 "u" 1 "pass"⟩] ∧
      (ProcessBatch (faultAt 3 "insert failed") [asset1, asset2] (fun _ => []) (fun _ => [])
        "u" emptyDB).2.log =
        [.begin (.ok 0), .exec 0 (.assetCheck 1 "u" 1 "pass") (.ok 101),
          .lastInsertId (.ok 101),
          .exec 0 (.assetCheck 2 "u" 3 "pass") (.error "insert failed"), .commit 0 none] :=
  ⟨rfl, rfl, rfl⟩

/-- C3 (evaluation at a failing commit). When the commit of the only batch
fails, `ProcessBatch` and `ProcessAndInsertAssets` still return no error,
although no row has been made durable. -/
theorem ProcessBatch_swallows_commit_error :
    ProcessBatch (faultAt 3 "commit failed") [asset1] (fun _ => []) (fun _ => []) "u" emptyDB
        = ProcessAndInsertAssets (faultAt 3 "commit failed") [asset1] (fun _ => [])
            (fun _ => []) "u" emptyDB ∧
      (ProcessAndInsertAssets (faultAt 3 "commit failed") [asset1] (fun _ => []) (fun _ => [])
        "u" emptyDB).1 = none ∧
      (ProcessAndInsertAssets (faultAt 3 "commit failed") [asset1] (fun _ => []) (fun _ => [])
        "u" emptyDB).2.committed = [] ∧
      (ProcessAndInsertAssets (faultAt 3 "commit failed") [asset1] (fun _ => []) (fun _ => [])
        "u" emptyDB).2.log =
        [.begin (.ok 0), .exec 0 (.assetCheck 1 "u" 1 "pass") (.ok 101),
          .lastInsertId (.ok 101), .commit 0 (some "commit failed")] := by
  rw [ProcessAndInsertAssets_eq_runBatches]
  exact ⟨rfl, rfl, rfl, rfl⟩

/-- C4. When no storage call fails, `ProcessAndInsertAssets` returns no error
and appends to the durable rows exactly the rows of a record tree whose
shape is the one the templates prescribe: per asset one AssetCheck row (the
asset's id, owner `userId`, status "pass"), under it one CheckGroup row per
check-group template of the asset's category with the template's name, under
each of them one CheckItem row per check-item template of that template with
its name, all with status "pass" and each child referencing its parent's
identifier. An asset whose category has no check-group template contributes
its AssetCheck row alone. -/
theorem ProcessAndInsertAssets_materialises_templates (env : Env) (hnf : NoFault env)
    (assets : List AssetDetail) (gmap : Int → List CheckGroupTemplate)
    (imap : Int → List CheckItemTemplate) (userId : String) (db : DB) :
    (ProcessAndInsertAssets env assets gmap imap userId db).1 = none ∧
      ∃ recs : List AssetRec,
        (ProcessAndInsertAssets env assets gmap imap userId db).2.committed
          = db.committed ++ (recs.map AssetRec.rows).flatten ∧
        recs.map AssetRec.shape = templateTree assets gmap imap userId ∧
        ∀ p ∈ assets.zip recs, gmap p.1.CategoryId = [] →
          p.2.rows = [⟨p.2.id, .assetCheck p.1.id userId p.2.updatedAt "pass"⟩] := by
  obtain ⟨evs, rows, _, h2, h3⟩ := runBatches_trace env gmap imap userId (batches assets) db
  rw [← ProcessAndInsertAssets_eq_runBatches] at h2 h3
  obtain ⟨hr, ⟨recs, k1, k2⟩, _⟩ := h3.runNoFault hnf
  rw [batches_flatten] at k2
  refine ⟨hr, recs, by rw [h2, k1], k2, ?_⟩
  intro p hp hempty
  have hshape := map_eq_map_zip assets recs k2 p hp
  simp only [AssetRec.shape, hempty, List.map_nil, Prod.mk.injEq, List.map_eq_nil_iff]
    at hshape
  obtain ⟨e1, e2, e3⟩ := hshape
  simp [AssetRec.rows, e1, e2, e3]

/-- Witness of C4: on the reliable backend one asset with the sample
templates is provisioned without error. -/
theorem ProcessAndInsertAssets_materialises_templates_witness :
    NoFault reliable ∧
      (ProcessAndInsertAssets reliable [asset1] sampleGroups sampleItems "u" emptyDB).1 = none :=
  ⟨fun _ => rfl,
    (ProcessAndInsertAssets_materialises_templates reliable (fun _ => rfl) [asset1]
      sampleGroups sampleItems "u" emptyDB).1⟩

/-- C5. In every run of `ProcessBatch`, failing or not, every CheckGroup
insert carries as `assetCheckId` the identifier returned by the most recent
AssetCheck insert, which succeeded in the same transaction, and every
CheckItem insert carries as `checkGroupId` the identifier returned by the most
recent CheckGroup insert, which succeeded in the same transaction; the parent
insert precedes the child, no transaction boundary lies between them, and all
inserts of the run belong to the one transaction the run began. -/
theorem ProcessBatch_referential_consistency (env : Env) (assets : List AssetDetail)
    (gmap : Int → List CheckGroupTemplate) (imap : Int → List CheckItemTemplate)
    (userId : String) (db : DB) (evs : List Event)
    (hlog : (ProcessBatch env assets gmap imap userId db).2.log = db.log ++ evs) :
    (∀ pre post tx name fk status out,
        evs = pre ++ .exec tx (.checkGroup name fk status) out :: post →
        ParentAssetCheck tx fk pre) ∧
      (∀ pre post tx name fk status ts out,
        evs = pre ++ .exec tx (.checkItem name fk status ts) out :: post →
        ParentCheckGroup tx fk pre) ∧
      ∃ out rest, evs = .begin out :: rest ∧ (∀ x ∈ rest, x.isBegin = false) ∧
        ∀ tx stmt o, .exec tx stmt o ∈ evs → out = .ok tx := by
  obtain ⟨evs2, rows, h1, _, h3⟩ := ProcessBatch_trace env gmap imap userId assets db
  obtain rfl : evs2 = evs := List.append_cancel_left (h1.symm.trans hlog)
  have hwp := h3.batchWellParented
  refine ⟨?_, ?_, h3.sameTx⟩
  · intro pre post tx name fk status out hs
    simpa [Parented] using hwp pre _ post hs
  · intro pre post tx name fk status ts out hs
    simpa [Parented] using hwp pre _ post hs

/-- Witness of C5: in the sample run the CheckGroup insert references the
identifier `101` returned by the AssetCheck insert before it. -/
theorem ProcessBatch_referential_consistency_witness :
    (ProcessBatch reliable [asset1] sampleGroups sampleItems "u" emptyDB).2.log
        = emptyDB.log ++ sampleLog ∧
      ParentAssetCheck 0 101
        [.begin (.ok 0), .exec 0 (.assetCheck 1 "u" 1 "pass") (.ok 101),
          .lastInsertId (.ok 101)] :=
  ⟨rfl,
    (ProcessBatch_referential_consistency reliable [asset1] sampleGroups sampleItems "u"
      emptyDB sampleLog rfl).1
      [.begin (.ok 0), .exec 0 (.assetCheck 1 "u" 1 "pass") (.ok 101), .lastInsertId (.ok 101)]
      [.lastInsertId (.ok 103), .exec 0 (.checkItem "Pads" 103 "pass" 5) (.ok 105),
        .commit 0 none]
      0 "Brakes" 101 "pass" (.ok 103) rfl⟩

/-- C7. If a write step (beginning a batch transaction, an insert, or reading
the assigned identifier) fails during `ProcessAndInsertAssets`, then the
function returns the error of the first such step, and after that step it
issues no insert and begins no transaction. -/
theorem ProcessAndInsertAssets_halts_on_first_error (env : Env) (assets : List AssetDetail)
    (gmap : Int → List CheckGroupTemplate) (imap : Int → List CheckItemTemplate)
    (userId : String) (db : DB) (pre post : List Event) (ev : Event) (e : Err)
    (hlog : (ProcessAndInsertAssets env assets gmap imap userId db).2.log
      = db.log ++ (pre ++ ev :: post))
    (hfail : ev.failure = some e) (hfirst : ∀ x ∈ pre, x.failure = none) :
    (ProcessAndInsertAssets env assets gmap imap userId db).1 = some e ∧
      ∀ x ∈ post, x.isInsert = false ∧ x.isBegin = false := by
  obtain ⟨evs, rows, h1, _, h3⟩ := runBatches_trace env gmap imap userId (batches assets) db
  rw [← ProcessAndInsertAssets_eq_runBatches] at h1 h3
  have hs : evs = pre ++ ev :: post := List.append_cancel_left (h1.symm.trans hlog)
  obtain ⟨hr, hpost⟩ := h3.runHalted.first_failure hs hfail hfirst
  refine ⟨hr, ?_⟩
  intro x hx
  obtain ⟨tx, out, rfl⟩ := hpost x hx
  exact ⟨rfl, rfl⟩

/-- Witness of C7: the second AssetCheck insert of a batch fails; its error is
returned and only the commit follows. -/
theorem ProcessAndInsertAssets_halts_on_first_error_witness :
    (ProcessAndInsertAssets (faultAt 3 "insert failed") [asset1, asset2] (fun _ => [])
        (fun _ => []) "u" emptyDB).1 = some "insert failed" ∧
      ∀ x ∈ [Event.commit 0 none], x.isInsert = false ∧ x.isBegin = false :=
  ProcessAndInsertAssets_halts_on_first_error (faultAt 3 "insert failed") [asset1, asset2]
    (fun _ => []) (fun _ => []) "u" emptyDB
    [.begin (.ok 0), .exec 0 (.assetCheck 1 "u" 1 "pass") (.ok 101), .lastInsertId (.ok 101)]
    [.commit 0 none] (.exec 0 (.assetCheck 2 "u" 3 "pass") (.error "insert failed"))
    "insert failed" (by rw [ProcessAndInsertAssets_eq_runBatches]; rfl) rfl (by decide)

theorem sum_map_const {α : Type} (f : α → Nat) (c : Nat) :
    ∀ xs : List α, (∀ x ∈ xs, f x = c) → (xs.map f).sum = xs.length * c := by
  intro xs
  induction xs with
  | nil => intro _; simp
  | cons x xs ih =>
    intro h
    rw [List.map_cons, List.sum_cons, h x (List.mem_cons_self _ _),
      ih fun y hy => h y (List.mem_cons_of_mem _ hy), List.length_cons, Nat.succ_mul]
    omega

/-- C6. `ProcessAndInsertAssets` processes the partition `batches assets`:
`ceil (n / 10)` batches, the `k`-th holding the assets at positions
`10k .. min (10k + 10) n - 1`, each non-empty with at most 10 assets, all but
the last with exactly 10, and concatenating to the input. Its run is the
sequential run of one `ProcessBatch` per batch; when no storage call fails it
returns no error and its storage calls are, batch by batch, one transaction
begun and committed before the next begins, the `k`-th transaction inserting
AssetCheck rows for exactly the assets of the `k`-th batch in order. For 11
assets of one category with one check-group template and no check-item
template the batches have sizes 10 and 1, and 11 AssetCheck, 11 CheckGroup
and 0 CheckItem rows are made durable. -/
theorem ProcessAndInsertAssets_batch_partition (env : Env) (hnf : NoFault env)
    (assets : List AssetDetail) (gmap : Int → List CheckGroupTemplate)
    (imap : Int → List CheckItemTemplate) (userId : String) (db : DB) (evs : List Event)
    (hlog : (ProcessAndInsertAssets env assets gmap imap userId db).2.log = db.log ++ evs) :
    ((batches assets).length = (assets.length + 9) / 10 ∧
        (batches assets).flatten = assets ∧
        (∀ b ∈ batches assets, b ≠ [] ∧ b.length ≤ 10) ∧
        ∀ k b, (batches assets)[k]? = some b →
          b = batchAt assets k ∧ (k + 1 < (batches assets).length → b.length = 10)) ∧
      ProcessAndInsertAssets env assets gmap imap userId db
        = runBatches env gmap imap userId (batches assets) db ∧
      (ProcessAndInsertAssets env assets gmap imap userId db).1 = none ∧
      (∃ segs : List (Nat × List Event),
        evs = (segs.map committedTx).flatten ∧ segs.length = (batches assets).length ∧
        ∀ p ∈ segs.zip (batches assets),
          (∀ x ∈ p.1.2, x.inTx p.1.1 = true) ∧ assetIdsOf p.1.2 = p.2.map (·.id)) ∧
      ∀ (c : Int) (G : CheckGroupTemplate), assets.length = 11 →
        (∀ a ∈ assets, a.CategoryId = c) → gmap c = [G] → imap G.id = [] →
        (batches assets).map List.length = [10, 1] ∧
        ∃ rows, (ProcessAndInsertAssets env assets gmap imap userId db).2.committed
            = db.committed ++ rows ∧
          rows.countP Row.isAssetCheck = 11 ∧ rows.countP Row.isCheckGroup = 11 ∧
          rows.countP Row.isCheckItem = 0 := by
  obtain ⟨evs2, rows, h1, h2, h3⟩ := runBatches_trace env gmap imap userId (batches assets) db
  rw [← ProcessAndInsertAssets_eq_runBatches] at h1 h2 h3
  obtain rfl : evs2 = evs := List.append_cancel_left (h1.symm.trans hlog)
  obtain ⟨hr, ⟨recs, k1, k2⟩, hsegs⟩ := h3.runNoFault hnf
  rw [batches_flatten] at k2
  refine ⟨⟨batches_length assets, batches_flatten assets, fun b hb => mem_batches hb, ?_⟩,
    ProcessAndInsertAssets_eq_runBatches env gmap imap userId assets db, hr, hsegs, ?_⟩
  · intro k b hb
    obtain ⟨hk, rfl⟩ := batches_getElem? assets k b hb
    refine ⟨rfl, ?_⟩
    intro hk1
    rw [batches_length] at hk1
    rw [batchAt_length]
    omega
  · intro c G h11 hcat hG hI
    constructor
    · simp [batches, batchSize, h11, List.range_succ, batchAt_length]
    · refine ⟨rows, h2, ?_⟩
      obtain ⟨c1, c2, c3⟩ := countP_assetRows recs
      have hlen : recs.length = 11 := by
        have := congrArg List.length k2
        simpa [templateTree, h11] using this
      have hrec : ∀ r ∈ recs, r.groups.length = 1 ∧
          (r.groups.map (·.items.length)).sum = 0 := by
        intro r hr
        have hmem : r.shape ∈ templateTree assets gmap imap userId := by
          rw [← k2]
          exact List.mem_map_of_mem _ hr
        simp only [templateTree, List.mem_map] at hmem
        obtain ⟨a, ha, hshape⟩ := hmem
        rw [hcat a ha, hG] at hshape
        simp only [List.map_cons, List.map_nil, hI, AssetRec.shape, Prod.mk.injEq] at hshape
        obtain ⟨_, _, hgs⟩ := hshape
        cases hg : r.groups with
        | nil => rw [hg] at hgs; simp at hgs
        | cons g gs =>
          rw [hg] at hgs
          simp only [List.map_cons, List.cons.injEq, GroupRec.shape, Prod.mk.injEq] at hgs
          obtain ⟨⟨_, hitems⟩, hrest⟩ := hgs
          have hgs0 : gs = [] := by simpa using hrest.symm
          have hi0 : g.items = [] := by simpa using hitems.symm
          simp [hgs0, hi0]
      rw [k1, c1, c2, c3, sum_map_const _ 1 recs fun r hr => (hrec r hr).1,
        sum_map_const _ 0 recs fun r hr => (hrec r hr).2, hlen]
      exact ⟨rfl, rfl, rfl⟩

/-- Witness of C6: eleven assets of category `5` on the reliable backend are
processed in two batches of sizes 10 and 1. -/
theorem ProcessAndInsertAssets_batch_partition_witness :
    NoFault reliable ∧ (batches (List.replicate 11 asset1)).map List.length = [10, 1] :=
  ⟨fun _ => rfl,
    ((ProcessAndInsertAssets_batch_partition reliable (fun _ => rfl)
      (List.replicate 11 asset1) sampleGroups (fun _ => []) "u" emptyDB
      (ProcessAndInsertAssets reliable (List.replicate 11 asset1) sampleGroups (fun _ => [])
        "u" emptyDB).2.log rfl).2.2.2.2
      5 ⟨50, "Brakes", 5⟩ rfl (by decide) rfl rfl).1⟩

end Helpers
